import Mathlib

/-!
DigitalSignalGenerator: a shallow embedding and its verified properties.

The development follows `DigitalSignalGenerator.cpp`.

Modelling conventions.

* `std::string` is `List Char`; `std::vector<double>` is `List ℚ`.  The codec only ever stores
  the voltages `-1`, `0`, `1`, and sums at most `sampling_rate` of them before dividing by an
  integer, so every value the round-trip statements compute is an integer or a quotient of two
  small integers that is exact in binary floating point; rational arithmetic reproduces it.
* `int` variables that can become negative (indices of the palindrome search) are `Int`;
  sizes, counts and `size_t` indices are `Nat`.  Machine widths are taken to be large enough for
  the input (`2 * size + 3` fits an `int`).
* An unchecked read or write outside a buffer, and a thrown exception, make the function
  return `none`; `pcm_encode`, whose only failure is its `std::invalid_argument`, returns
  `Except.error` with the message instead.
* On a sample series that did not come from the encoders, the decoders and `pcm_encode` are
  modelled in exact arithmetic; the statements made about them there (lengths, alphabet, block
  structure, order of the levels) do not depend on rounding.  `delta_modulation`, whose output
  does depend on it, rounds its approximation to binary64 after every update.
* A `while`/`for` loop whose trip count is not a list traversal takes a fuel argument; fuel
  exhaustion returns `none`.  Each theorem that states a result therefore also states that the
  fuel handed in by the top-level function suffices.
-/

/-- Configuration held by a codec instance (`bit_duration`, `sampling_rate`). -/
structure DigitalSignalGenerator where
  bit_duration : ℚ
  sampling_rate : Nat

namespace DigitalSignalGenerator

/-! ## Palindrome search (`longest_palindrome_manacher`) -/

/-- Unchecked read `t[j]` with an `int` index; `none` when `j` is outside the buffer. -/
def readAt {α : Type} (t : List α) (j : Int) : Option α :=
  if 0 ≤ j then t[j.toNat]? else none

/-- Unchecked write `t[j] = v` with an `int` index; `none` when `j` is outside the buffer. -/
def writeAt {α : Type} (t : List α) (j : Int) (v : α) : Option (List α) :=
  if 0 ≤ j ∧ j.toNat < t.length then some (t.set j.toNat v) else none

/-- The transformed string `t`: `^`, then `#` and a character for every character of `s`,
then `#` and `$`. -/
def transform (s : List Char) : List Char :=
  ['^'] ++ s.flatMap (fun c => ['#', c]) ++ ['#'] ++ ['$']

/-- The loop `while (t[i+1+P[i]] == t[i-1-P[i]]) ++P[i];`. -/
def expandLoop (t : List Char) (i : Int) : Nat → List Int → Option (List Int)
  | 0, _ => none
  | fuel + 1, P => do
    let p ← readAt P i
    let a ← readAt t (i + 1 + p)
    let b ← readAt t (i - 1 - p)
    if a = b then
      let P1 ← writeAt P i (p + 1)
      expandLoop t i fuel P1
    else
      some P

/-- Variables of the radius-filling loop: the array `P`, `center` and `right`. -/
structure MState where
  P : List Int
  center : Int
  right : Int

/-- One iteration of the first `for (int i = 1; i < n-1; ++i)` loop. -/
def fillStep (t : List Char) (st : MState) (k : Nat) : Option MState := do
  let i : Int := k
  let mirror := 2 * st.center - i
  let P1 ← if i < st.right then do
              let pm ← readAt st.P mirror
              writeAt st.P i (min (st.right - i) pm)
            else some st.P
  let P2 ← expandLoop t i t.length P1
  let pi ← readAt P2 i
  if i + pi > st.right then some ⟨P2, i, i + pi⟩ else some ⟨P2, st.center, st.right⟩

/-- One iteration of the second loop, on the pair `(max_len, center_idx)`. -/
def pickStep (P : List Int) (acc : Int × Int) (k : Nat) : Option (Int × Int) := do
  let i : Int := k
  let pi ← readAt P i
  if pi > acc.1 then some (pi, i) else some acc

/-- The call `s.substr(pos, len)` with `int` arguments converted to `size_t`: a negative or
too large `pos` throws, a negative `len` means "up to the end". -/
def substr (s : List Char) (pos len : Int) : Option (List Char) :=
  if 0 ≤ pos ∧ pos.toNat ≤ s.length then
    some ((s.drop pos.toNat).take (if len < 0 then s.length else len.toNat))
  else none

/-- The method `longest_palindrome_manacher`, returning `(pal, start, max_len)`. -/
def longest_palindrome_manacher (s : List Char) : Option (List Char × Int × Int) :=
  if s.isEmpty then some ([], 0, 0) else do
    let t := transform s
    let n : Int := t.length
    let P0 : List Int := List.replicate t.length 0
    let st ← (List.range' 1 (n - 2).toNat).foldlM (fillStep t) ⟨P0, 0, 0⟩
    let (max_len, center_idx) ← (List.range' 1 (n - 2).toNat).foldlM (pickStep st.P) (0, 0)
    if max_len = 0 then some ([], 0, 0) else do
      let start := (center_idx - max_len - 1).tdiv 2
      let pal ← substr s start max_len
      some (pal, start, max_len)

/-! ## Zero runs and scrambling -/

/-- The inner loop `while (i < data.size() && data[i] == '0') { ++count; ++i; }`, returning the
final `(i, count)`. -/
def zeroRunLoop (data : List Char) : Nat → Nat → Nat → Option (Nat × Nat)
  | 0, _, _ => none
  | fuel + 1, i, count =>
    if i < data.length ∧ data[i]? = some '0' then zeroRunLoop data fuel (i + 1) (count + 1)
    else some (i, count)

/-- The outer loop `while (i < data.size())` of `find_zero_sequences`. -/
def scanLoop (data : List Char) : Nat → Nat → List (Nat × Nat) → Option (List (Nat × Nat))
  | 0, _, _ => none
  | fuel + 1, i, seq =>
    if i < data.length then
      if data[i]? = some '0' then do
        let start := i
        let (i2, count) ← zeroRunLoop data (data.length + 1) i 0
        scanLoop data fuel i2 (seq ++ [(start, count)])
      else scanLoop data fuel (i + 1) seq
    else some seq

/-- The method `find_zero_sequences`: the list of `(start, count)` pairs. -/
def find_zero_sequences (data : List Char) : Option (List (Nat × Nat)) :=
  scanLoop data (data.length + 1) 0 []

/-- The call `result.replace(pos, len, str)`: throws when `pos` exceeds the size, otherwise
replaces the (at most `len`) characters from `pos` by `str`. -/
def replace (result : List Char) (pos len : Nat) (str : List Char) : Option (List Char) :=
  if pos ≤ result.length then some (result.take pos ++ str ++ result.drop (pos + len)) else none

/-- The loop `for (int j = start; j <= start + length - 8; j += 8)` of `b8zs_scramble`. -/
def b8zsLoop (start length : Nat) : Nat → Nat → List Char → Option (List Char)
  | 0, _, _ => none
  | fuel + 1, j, result =>
    if (j : Int) ≤ (start : Int) + (length : Int) - 8 then do
      let result2 ← if j + 8 ≤ result.length then replace result j 8 "000VB0VB".toList
                    else some result
      b8zsLoop start length fuel (j + 8) result2
    else some result

/-- Body of `for (auto &p : sequences)` in `b8zs_scramble`. -/
def b8zsStep (result : List Char) (p : Nat × Nat) : Option (List Char) :=
  let start := p.1
  let length := p.2
  if length ≥ 8 then b8zsLoop start length (length + 1) start result else some result

/-- The method `b8zs_scramble`. -/
def b8zs_scramble (data : List Char) : Option (List Char) := do
  let sequences ← find_zero_sequences data
  sequences.foldlM b8zsStep data

/-- The loop `for (int j = start; j <= start + length - 4; j += 4)` of `hdb3_scramble`, on the
pair `(result, ones_count)`. -/
def hdb3Loop (start length : Nat) : Nat → Nat → List Char × Nat → Option (List Char × Nat)
  | 0, _, _ => none
  | fuel + 1, j, (result, ones_count) =>
    if (j : Int) ≤ (start : Int) + (length : Int) - 4 then do
      let st2 ← if j + 4 ≤ result.length then do
                    let r2 ← if ones_count % 2 = 0 then replace result j 4 "000V".toList
                             else replace result j 4 "B00V".toList
                    some (r2, ones_count + 1)
                else some (result, ones_count)
      hdb3Loop start length fuel (j + 4) st2
    else some (result, ones_count)

/-- Body of `for (auto &p : sequences)` in `hdb3_scramble`. -/
def hdb3Step (st : List Char × Nat) (p : Nat × Nat) : Option (List Char × Nat) :=
  let start := p.1
  let length := p.2
  if length ≥ 4 then hdb3Loop start length (length + 1) start st else some st

/-- The method `hdb3_scramble`. -/
def hdb3_scramble (data : List Char) : Option (List Char) := do
  let sequences ← find_zero_sequences data
  let st ← sequences.foldlM hdb3Step (data, 0)
  some st.1

/-! ## Line encoders -/

/-- The helper `append_samples`: appends `samples` time points and `samples` copies of `value`.
-/
def append_samples (time signal : List ℚ) (t0 t1 : ℚ) (samples : Nat) (value : ℚ) :
    List ℚ × List ℚ :=
  let dt := (t1 - t0) / (samples : ℚ)
  (List.range samples).foldl
    (fun acc (i : Nat) => (acc.1 ++ [t0 + (i : ℚ) * dt], acc.2 ++ [value])) (time, signal)

/-- The method `nrz_l`, returning `(time, signal)`. -/
def nrz_l (g : DigitalSignalGenerator) (data : List Char) : List ℚ × List ℚ :=
  let samples := g.sampling_rate
  (List.range data.length).foldl (fun acc (i : Nat) =>
    let t0 := (i : ℚ) * g.bit_duration
    let t1 := ((i : ℚ) + 1) * g.bit_duration
    let v : ℚ := if data[i]? = some '1' then 1 else -1
    append_samples acc.1 acc.2 t0 t1 samples v) ([], [])

/-- Loop variables of the encoders that carry a level from one symbol to the next. -/
structure LevelState where
  time : List ℚ
  signal : List ℚ
  level : ℚ

/-- The method `nrz_i`. -/
def nrz_i (g : DigitalSignalGenerator) (data : List Char) : List ℚ × List ℚ :=
  let samples := g.sampling_rate
  let st := (List.range data.length).foldl (fun (st : LevelState) (i : Nat) =>
    let level := if data[i]? = some '1' then -st.level else st.level
    let t0 := (i : ℚ) * g.bit_duration
    let t1 := ((i : ℚ) + 1) * g.bit_duration
    let r := append_samples st.time st.signal t0 t1 samples level
    ⟨r.1, r.2, level⟩) ⟨[], [], -1⟩
  (st.time, st.signal)

/-- The method `manchester`. -/
def manchester (g : DigitalSignalGenerator) (data : List Char) : List ℚ × List ℚ :=
  let half_samples := g.sampling_rate / 2
  (List.range data.length).foldl (fun acc (i : Nat) =>
    let t0 := (i : ℚ) * g.bit_duration
    let mid := t0 + g.bit_duration / 2
    if data[i]? = some '1' then
      let r := append_samples acc.1 acc.2 t0 mid half_samples (-1)
      append_samples r.1 r.2 mid (t0 + g.bit_duration) half_samples 1
    else
      let r := append_samples acc.1 acc.2 t0 mid half_samples 1
      append_samples r.1 r.2 mid (t0 + g.bit_duration) half_samples (-1)) ([], [])

/-- The method `differential_manchester`. -/
def differential_manchester (g : DigitalSignalGenerator) (data : List Char) : List ℚ × List ℚ :=
  let half_samples := g.sampling_rate / 2
  let st := (List.range data.length).foldl (fun (st : LevelState) (i : Nat) =>
    let t0 := (i : ℚ) * g.bit_duration
    let mid := t0 + g.bit_duration / 2
    let level := if data[i]? = some '0' then -st.level else st.level
    let r := append_samples st.time st.signal t0 mid half_samples level
    let level := -level
    let r := append_samples r.1 r.2 mid (t0 + g.bit_duration) half_samples level
    ⟨r.1, r.2, level⟩) ⟨[], [], 1⟩
  (st.time, st.signal)

/-- The method `ami`; the field `level` holds `last_one`. -/
def ami (g : DigitalSignalGenerator) (data : List Char) : List ℚ × List ℚ :=
  let samples := g.sampling_rate
  let st := (List.range data.length).foldl (fun (st : LevelState) (i : Nat) =>
    let t0 := (i : ℚ) * g.bit_duration
    let t1 := ((i : ℚ) + 1) * g.bit_duration
    let last_one := if data[i]? = some '1' then -st.level else st.level
    let v : ℚ := if data[i]? = some '1' then last_one else 0
    let r := append_samples st.time st.signal t0 t1 samples v
    ⟨r.1, r.2, last_one⟩) ⟨[], [], -1⟩
  (st.time, st.signal)

/-! ## Decoders -/

/-- The loop header `for (size_t i=0; i+s<=signal.size(); i += s)` shared by the five
decoders; `body` is the loop body at offset `i`. -/
def forBlocks {σ : Type} (s size : Nat) (body : σ → Nat → σ) : Nat → Nat → σ → Option σ
  | 0, _, _ => none
  | fuel + 1, i, st =>
    if i + s ≤ size then forBlocks s size body fuel (i + s) (body st i) else some st

/-- The call `std::accumulate(signal.begin()+first, signal.begin()+last, 0.0)`. -/
def accumulate (signal : List ℚ) (first last : Nat) : ℚ :=
  ((signal.take last).drop first).foldl (fun acc x => acc + x) 0

/-- The method `decode_nrz_l`. -/
def decode_nrz_l (g : DigitalSignalGenerator) (signal : List ℚ) : Option (List Char) :=
  let samples_per_bit := g.sampling_rate
  forBlocks samples_per_bit signal.length (fun out (i : Nat) =>
    let avg := accumulate signal i (i + samples_per_bit) / (samples_per_bit : ℚ)
    out ++ [if avg > 0 then '1' else '0']) (signal.length + 1) 0 []

/-- The method `decode_nrz_i`; the loop state is `(out, last_level)`. -/
def decode_nrz_i (g : DigitalSignalGenerator) (signal : List ℚ) : Option (List Char) :=
  let s := g.sampling_rate
  match signal with
  | [] => some []
  | first :: _ =>
    (forBlocks s signal.length (fun (st : List Char × ℚ) (i : Nat) =>
      let avg := accumulate signal i (i + s) / (s : ℚ)
      let bit := if |avg - st.2| > 1 / 2 then '1' else '0'
      (st.1 ++ [bit], avg)) (signal.length + 1) 0 ([], first)).map Prod.fst

/-- The method `decode_manchester`.  When `half = 0` (a `sampling_rate` of 1) the C++ quotient
`first` is `0.0 / 0`, a NaN, and the comparison `first < second` is false; the guard
`half ≠ 0` stands for that. -/
def decode_manchester (g : DigitalSignalGenerator) (signal : List ℚ) : Option (List Char) :=
  let s := g.sampling_rate
  forBlocks s signal.length (fun out (i : Nat) =>
    let half := s / 2
    let first := accumulate signal i (i + half) / (half : ℚ)
    let second := accumulate signal (i + half) (i + s) / ((s - half : Nat) : ℚ)
    out ++ [if half ≠ 0 ∧ first < second then '1' else '0']) (signal.length + 1) 0 []

/-- The method `decode_differential_manchester`.  As in `decode_manchester`, `half = 0` makes
`first` a NaN in the C++ and the comparison false. -/
def decode_differential_manchester (g : DigitalSignalGenerator) (signal : List ℚ) :
    Option (List Char) :=
  let s := g.sampling_rate
  forBlocks s signal.length (fun out (i : Nat) =>
    let half := s / 2
    let first := accumulate signal i (i + half) / (half : ℚ)
    let second := accumulate signal (i + half) (i + s) / ((s - half : Nat) : ℚ)
    out ++ [if half ≠ 0 ∧ |first - second| > 1 / 2 then '1' else '0'])
    (signal.length + 1) 0 []

/-- The method `decode_ami`. -/
def decode_ami (g : DigitalSignalGenerator) (signal : List ℚ) : Option (List Char) :=
  let s := g.sampling_rate
  forBlocks s signal.length (fun out (i : Nat) =>
    let avg := accumulate signal i (i + s) / (s : ℚ)
    out ++ [if |avg| > 1 / 10 then '1' else '0']) (signal.length + 1) 0 []

/-! ## Analog to digital conversion

The samples are `double`s in the source.  In `pcm_encode` they are rationals, so the statements
about it are statements about exact arithmetic.  `n_bits` is taken non-negative; for `n_bits` up
to 30 the value `1 << n_bits` fits an `int`, and above that the mathematical value is used where
the C++ leaves the shift undefined.

The output of `delta_modulation` depends on how its running approximation is rounded, so there
every `+=` and `-=` on the `double` is the exact operation followed by `roundDouble`, the
rounding to the nearest binary64 number with ties to even.  A sample or step is a `double` when
`roundDouble` leaves it unchanged.  Infinities and NaN are not modelled: the values are taken to
stay in the finite range. -/

/-- The method `pcm_encode`; `Except.error` carries the message of the `std::invalid_argument`
that is thrown. -/
def pcm_encode (analog_signal : List ℚ) (n_bits : Nat) : Except String (List Char) :=
  if analog_signal.length < 2 then Except.error "Signal needs at least 2 samples" else
    let mn := analog_signal.foldl min (analog_signal.headD 0)
    let mx := analog_signal.foldl max (analog_signal.headD 0)
    let range := mx - mn
    let range := if range = 0 then 1 / 10 ^ 10 else range
    let levels : Int := 2 ^ n_bits
    Except.ok (analog_signal.flatMap (fun v =>
      let normalized := (v - mn) / range
      let quant : Int := ⌊normalized * ((levels - 1 : Int) : ℚ)⌋
      (List.range n_bits).reverse.map
        (fun (b : Nat) => if (quant >>> b) % 2 = 1 then '1' else '0')))

/-- The two characters at distance `m + 1` on either side of position `i` exist and agree. -/
def Match (t : List Char) (i m : Int) : Prop :=
  ∃ c, readAt t (i + 1 + m) = some c ∧ readAt t (i - 1 - m) = some c

/-- Radius `r` is valid at centre `i`: the first `r` comparisons of the expansion succeed. -/
def Rad (t : List Char) (i r : Int) : Prop :=
  ∀ m : Int, 0 ≤ m → m < r → Match t i m

/-- The expansion at centre `i` stops at radius `r`: both reads are in bounds and differ. -/
def Stop (t : List Char) (i r : Int) : Prop :=
  ∃ a b, readAt t (i + 1 + r) = some a ∧ readAt t (i - 1 - r) = some b ∧ a ≠ b

/-- Invariant of the radius-filling loop before iteration `i`. -/
structure FillInv (s : List Char) (i : Nat) (st : MState) : Prop where
  len : st.P.length = 2 * s.length + 3
  valid : ∀ j : Int, 0 ≤ j → j < 2 * (s.length : Int) + 3 →
    ∃ r, readAt st.P j = some r ∧ 0 ≤ r ∧ Rad (transform s) j r
  maximal : ∀ j : Int, 1 ≤ j → j < i → ∀ r, readAt st.P j = some r → Stop (transform s) j r
  fresh : ∀ j : Int, (i : Int) ≤ j → j < 2 * (s.length : Int) + 3 → readAt st.P j = some 0
  center_lo : 0 ≤ st.center
  center_hi : st.center < i
  right_eq : ∃ pc, readAt st.P st.center = some pc ∧ st.right = st.center + pc

/-- Invariant of the selection loop before iteration `i`. -/
structure PickInv (P : List Int) (i : Nat) (acc : Int × Int) : Prop where
  nonneg : 0 ≤ acc.1
  upper : ∀ j : Int, 1 ≤ j → j < i → ∀ r, readAt P j = some r → r ≤ acc.1
  first : (acc.1 = 0 ∧ acc.2 = 0) ∨
    (0 < acc.1 ∧ 1 ≤ acc.2 ∧ acc.2 < i ∧ readAt P acc.2 = some acc.1 ∧
      ∀ j : Int, 1 ≤ j → j < acc.2 → ∀ r, readAt P j = some r → r < acc.1)

/-- A string reads the same forwards and backwards. -/
def IsPal (q : List Char) : Prop := q.reverse = q

/-- The pair `(a, L)` is a maximal run of zero characters of `data`: non-empty, all zeros, and not
extendable on either side. -/
def MaxRun (data : List Char) (a L : Nat) : Prop :=
  1 ≤ L ∧ (∀ k, a ≤ k → k < a + L → data[k]? = some '0') ∧
    (∀ k, k + 1 = a → data[k]? ≠ some '0') ∧ data[a + L]? ≠ some '0'

/-- Invariant of the outer scan at index `i`. -/
structure ScanInv (data : List Char) (i : Nat) (seq : List (Nat × Nat)) : Prop where
  bound : i ≤ data.length
  edge : ∀ k, k + 1 = i → data[k]? = some '0' → data[i]? ≠ some '0'
  content : ∀ a L, (a, L) ∈ seq ↔ (MaxRun data a L ∧ a < i)
  ends : ∀ p ∈ seq, p.1 + p.2 ≤ i
  order : seq.Pairwise (fun p q => p.1 < q.1 ∧ p.1 + p.2 ≤ q.1)

/-- Substitution pattern chosen by `hdb3_scramble` when `n` substitutions were made before. -/
def hdb3Pattern (n : Nat) : List Char :=
  if n % 2 = 0 then "000V".toList else "B00V".toList

/-- Blocks of samples laid end to end. -/
def blocks (blk : Nat → List ℚ) (n : Nat) : List ℚ := (List.range n).flatMap blk

/-- Samples that `nrz_l` emits for symbol `i`. -/
def nrzlBlock (g : DigitalSignalGenerator) (data : List Char) (i : Nat) : List ℚ :=
  List.replicate g.sampling_rate (if data[i]? = some '1' then (1 : ℚ) else -1)

/-- Level of a line that starts at `-1` and is inverted by every `1` among the first `i`
symbols (the `level` of `nrz_i` and the `last_one` of `ami`). -/
def toggleLevel (data : List Char) : Nat → ℚ
  | 0 => -1
  | i + 1 => if data[i]? = some '1' then -toggleLevel data i else toggleLevel data i

/-- Samples that `ami` emits for symbol `i`. -/
def amiBlock (g : DigitalSignalGenerator) (data : List Char) (i : Nat) : List ℚ :=
  List.replicate g.sampling_rate (if data[i]? = some '1' then toggleLevel data (i + 1) else 0)

/-- Samples that `manchester` emits for symbol `i`. -/
def manBlock (g : DigitalSignalGenerator) (data : List Char) (i : Nat) : List ℚ :=
  List.replicate (g.sampling_rate / 2) (if data[i]? = some '1' then (-1 : ℚ) else 1) ++
    List.replicate (g.sampling_rate / 2) (if data[i]? = some '1' then (1 : ℚ) else -1)

/-- Samples that `nrz_i` emits for symbol `i`. -/
def nrziBlock (g : DigitalSignalGenerator) (data : List Char) (i : Nat) : List ℚ :=
  List.replicate g.sampling_rate (toggleLevel data (i + 1))

/-- Value of `level` in `differential_manchester` after the first `i` symbols: it starts at
`1`, is inverted before a `0` symbol and is inverted once more at every mid-symbol. -/
def dmLevel (data : List Char) : Nat → ℚ
  | 0 => 1
  | i + 1 => -(if data[i]? = some '0' then -dmLevel data i else dmLevel data i)

/-- Samples that `differential_manchester` emits for symbol `i`. -/
def dmBlock (g : DigitalSignalGenerator) (data : List Char) (i : Nat) : List ℚ :=
  List.replicate (g.sampling_rate / 2) (-dmLevel data (i + 1)) ++
    List.replicate (g.sampling_rate / 2) (dmLevel data (i + 1))

/-- The string in which every character other than `1` is replaced by `0`. -/
def zeroUnlessOne (data : List Char) : List Char :=
  data.map (fun c => if c = '1' then '1' else '0')

/-- The string in which every character other than `0` is replaced by `1`. -/
def oneUnlessZero (data : List Char) : List Char :=
  data.map (fun c => if c = '0' then '0' else '1')

/-- Block structure of a decoder `dec` on `signal`: it returns one character `0` or `1` per full
block of `sampling_rate` samples, and the same result on the signal cut down to its full blocks.
-/
def BlockDecoder (dec : DigitalSignalGenerator → List ℚ → Option (List Char))
    (g : DigitalSignalGenerator) (signal : List ℚ) : Prop :=
  ∃ out, dec g signal = some out ∧ out.length = signal.length / g.sampling_rate ∧
    (∀ c ∈ out, c = '0' ∨ c = '1') ∧
    dec g (signal.take (g.sampling_rate * (signal.length / g.sampling_rate))) = some out

/-- Output of the `decode_nrz_i` loop after `q` blocks of `sig`, started with `last_level =
first`. -/
def nrziOut (g : DigitalSignalGenerator) (sig : List ℚ) (first : ℚ) (q : Nat) : List Char :=
  ((List.range q).foldl (fun (st : List Char × ℚ) (j : Nat) =>
    ((st.1 ++ [if |accumulate sig (0 + j * g.sampling_rate)
          (0 + j * g.sampling_rate + g.sampling_rate) / (g.sampling_rate : ℚ) - st.2| > 1 / 2
        then '1' else '0'],
      accumulate sig (0 + j * g.sampling_rate)
        (0 + j * g.sampling_rate + g.sampling_rate) / (g.sampling_rate : ℚ)) :
      List Char × ℚ)) ([], first)).1

/-- The value `mn` of `pcm_encode`. -/
def pcmMin (samples : List ℚ) : ℚ := samples.foldl min (samples.headD 0)

/-- The value `mx` of `pcm_encode`. -/
def pcmMax (samples : List ℚ) : ℚ := samples.foldl max (samples.headD 0)

/-- The value `range` of `pcm_encode` after the substitution for a zero range. -/
def pcmRange (samples : List ℚ) : ℚ :=
  if pcmMax samples - pcmMin samples = 0 then 1 / 10 ^ 10 else pcmMax samples - pcmMin samples

/-- The value `quant` that `pcm_encode` computes for the sample `v`. -/
def pcmQuant (samples : List ℚ) (n_bits : Nat) (v : ℚ) : Int :=
  ⌊(v - pcmMin samples) / pcmRange samples * (((2 : Int) ^ n_bits - 1 : Int) : ℚ)⌋

/-- The `n_bits` characters that `pcm_encode` emits for the level `quant`. -/
def pcmGroup (quant : Int) (n_bits : Nat) : List Char :=
  (List.range n_bits).reverse.map (fun (b : Nat) => if (quant >>> b) % 2 = 1 then '1' else '0')

/-- A group of `0`/`1` characters read as an unsigned integer, most significant bit first. -/
def readGroup (group : List Char) : Nat :=
  group.foldl (fun acc c => 2 * acc + (if c = '1' then 1 else 0)) 0

/-! ## Lemmas -/

theorem readAt_natCast {α : Type} (t : List α) (k : Nat) : readAt t (k : Int) = t[k]? := by
  simp [readAt]

theorem readAt_eq_some {α : Type} {t : List α} {j : Int} {c : α} (h : readAt t j = some c) :
    0 ≤ j ∧ j < t.length := by
  unfold readAt at h
  split at h
  · rename_i h0
    refine ⟨h0, ?_⟩
    have := List.getElem?_eq_some_iff.mp h
    obtain ⟨hlt, _⟩ := this
    omega
  · simp at h

theorem readAt_isSome {α : Type} (t : List α) (j : Int) (h0 : 0 ≤ j) (h1 : j < t.length) :
    ∃ c, readAt t j = some c := by
  unfold readAt
  rw [if_pos h0]
  have : j.toNat < t.length := by omega
  exact ⟨t[j.toNat], List.getElem?_eq_getElem this⟩

theorem length_flatMap_pair (s : List Char) :
    (s.flatMap (fun c => ['#', c])).length = 2 * s.length := by
  induction s with
  | nil => rfl
  | cons a s ih => rw [List.flatMap_cons, List.length_append, ih]; simp; omega

theorem length_transform (s : List Char) : (transform s).length = 2 * s.length + 3 := by
  unfold transform
  rw [List.length_append, List.length_append, List.length_append, length_flatMap_pair]
  simp; omega

/-- Body of the transformed string, indexed from the first separator. -/
theorem body_getElem? (s : List Char) (rest : List Char) :
    ∀ k : Nat, k < s.length →
      (s.flatMap (fun c => ['#', c]) ++ rest)[2 * k]? = some '#' ∧
      (s.flatMap (fun c => ['#', c]) ++ rest)[2 * k + 1]? = s[k]? := by
  induction s with
  | nil => intro k hk; simp at hk
  | cons a s ih =>
    intro k hk
    cases k with
    | zero => simp [List.flatMap_cons]
    | succ k =>
      have hk2 : k < s.length := by simpa using hk
      have := ih k hk2
      have e1 : 2 * (k + 1) = (2 * k) + 1 + 1 := by ring
      have e2 : 2 * (k + 1) + 1 = (2 * k + 1) + 1 + 1 := by ring
      simp only [List.flatMap_cons, List.cons_append, List.nil_append]
      rw [e1]
      simp only [List.getElem?_cons_succ]
      exact this

theorem body_getElem?_rest (s : List Char) (rest : List Char) (k : Nat) :
    (s.flatMap (fun c => ['#', c]) ++ rest)[2 * s.length + k]? = rest[k]? := by
  rw [← length_flatMap_pair s, List.getElem?_append_right (by omega)]
  simp

theorem transform_zero (s : List Char) : readAt (transform s) 0 = some '^' := by
  simp [readAt, transform]

theorem transform_odd (s : List Char) (k : Nat) (hk : k ≤ s.length) :
    readAt (transform s) (2 * (k : Int) + 1) = some '#' := by
  have e : (2 * (k : Int) + 1) = ((2 * k + 1 : Nat) : Int) := by push_cast; ring
  rw [e, readAt_natCast]
  have ht : transform s = '^' :: (s.flatMap (fun c => ['#', c]) ++ ['#', '$']) := by
    simp [transform]
  rw [ht, List.getElem?_cons_succ]
  rcases Nat.lt_or_ge k s.length with h | h
  · exact (body_getElem? s _ k h).1
  · have : k = s.length := by omega
    subst this
    have := body_getElem?_rest s ['#', '$'] 0
    simpa using this

theorem transform_even (s : List Char) (k : Nat) (hk : k < s.length) :
    readAt (transform s) (2 * (k : Int) + 2) = s[k]? := by
  have e : (2 * (k : Int) + 2) = ((2 * k + 1 + 1 : Nat) : Int) := by push_cast; ring
  rw [e, readAt_natCast]
  have ht : transform s = '^' :: (s.flatMap (fun c => ['#', c]) ++ ['#', '$']) := by
    simp [transform]
  rw [ht, List.getElem?_cons_succ]
  exact (body_getElem? s _ k hk).2

theorem transform_last (s : List Char) :
    readAt (transform s) (2 * (s.length : Int) + 2) = some '$' := by
  have e : (2 * (s.length : Int) + 2) = ((2 * s.length + 1 + 1 : Nat) : Int) := by push_cast; ring
  rw [e, readAt_natCast]
  have ht : transform s = '^' :: (s.flatMap (fun c => ['#', c]) ++ ['#', '$']) := by
    simp [transform]
  rw [ht, List.getElem?_cons_succ]
  have := body_getElem?_rest s ['#', '$'] 1
  simpa using this

/-- Every in-bounds position of the transformed string is the leading sentinel, the trailing
sentinel, a separator, or a character of the input. -/
theorem transform_cases (s : List Char) (j : Int) (h0 : 0 ≤ j) (h1 : j < 2 * s.length + 3) :
    j = 0 ∨ j = 2 * (s.length : Int) + 2 ∨
    (∃ k : Nat, k ≤ s.length ∧ j = 2 * (k : Int) + 1) ∨
    (∃ k : Nat, k < s.length ∧ j = 2 * (k : Int) + 2) := by
  rcases Int.emod_two_eq_zero_or_one j with h | h
  · by_cases hj : j = 0
    · exact Or.inl hj
    · by_cases hl : j = 2 * (s.length : Int) + 2
      · exact Or.inr (Or.inl hl)
      · refine Or.inr (Or.inr (Or.inr ⟨((j - 2) / 2).toNat, ?_, ?_⟩)) <;> omega
  · refine Or.inr (Or.inr (Or.inl ⟨((j - 1) / 2).toNat, ?_, ?_⟩)) <;> omega

theorem transform_caret (s : List Char) (hs : '^' ∉ s) (j : Int)
    (h : readAt (transform s) j = some '^') : j = 0 := by
  have hb := readAt_eq_some h
  rw [length_transform] at hb
  rcases transform_cases s j hb.1 (by omega) with h0 | hl | ⟨k, hk, rfl⟩ | ⟨k, hk, rfl⟩
  · exact h0
  · rw [hl, transform_last] at h; simp at h
  · rw [transform_odd s k hk] at h; simp at h
  · rw [transform_even s k hk] at h
    exact absurd (List.getElem?_mem h) hs

theorem transform_dollar (s : List Char) (hs : '$' ∉ s) (j : Int)
    (h : readAt (transform s) j = some '$') : j = 2 * (s.length : Int) + 2 := by
  have hb := readAt_eq_some h
  rw [length_transform] at hb
  rcases transform_cases s j hb.1 (by omega) with h0 | hl | ⟨k, hk, rfl⟩ | ⟨k, hk, rfl⟩
  · rw [h0, transform_zero] at h; simp at h
  · exact hl
  · rw [transform_odd s k hk] at h; simp at h
  · rw [transform_even s k hk] at h
    exact absurd (List.getElem?_mem h) hs

theorem rad_zero (t : List Char) (i : Int) : Rad t i 0 := by
  intro m h0 h1; omega

theorem rad_mono {t : List Char} {i r r2 : Int} (h : Rad t i r) (hle : r2 ≤ r) : Rad t i r2 :=
  fun m h0 h1 => h m h0 (by omega)

theorem rad_succ {t : List Char} {i r : Int} (h : Rad t i r) (hm : Match t i r) :
    Rad t i (r + 1) := by
  intro m h0 h1
  by_cases e : m = r
  · subst e; exact hm
  · exact h m h0 (by omega)

theorem rad_le_of_stop {t : List Char} {i r L : Int} (hr : 0 ≤ r) (h : Rad t i L)
    (hs : Stop t i r) : L ≤ r := by
  by_contra hlt
  obtain ⟨c, h1, h2⟩ := h r hr (by omega)
  obtain ⟨a, b, ha, hb, hab⟩ := hs
  rw [h1] at ha; rw [h2] at hb
  simp at ha hb
  exact hab (ha ▸ hb ▸ rfl)

/-- Sentinels bound every valid radius: it stays strictly inside the transformed string. -/
theorem rad_bound (s : List Char) (h1 : '^' ∉ s) (h2 : '$' ∉ s) (i r : Int)
    (hi : 1 ≤ i) (hi2 : i ≤ 2 * (s.length : Int) + 1) (hr : Rad (transform s) i r) :
    r < i ∧ i + r < 2 * (s.length : Int) + 2 := by
  constructor
  · by_contra hc
    obtain ⟨c, ha, hb⟩ := hr (i - 1) (by omega) (by omega)
    have e : i - 1 - (i - 1) = 0 := by ring
    rw [e, transform_zero] at hb
    rw [← hb] at ha
    have := transform_caret s h1 _ ha
    omega
  · by_contra hc
    obtain ⟨c, ha, hb⟩ := hr (2 * (s.length : Int) + 1 - i) (by omega) (by omega)
    have e : i + 1 + (2 * (s.length : Int) + 1 - i) = 2 * (s.length : Int) + 2 := by ring
    rw [e, transform_last] at ha
    rw [← ha] at hb
    have := transform_dollar s h2 _ hb
    omega

theorem readAt_set_self {α : Type} (P : List α) (i : Int) (v : α) (h0 : 0 ≤ i)
    (h1 : i < P.length) : readAt (P.set i.toNat v) i = some v := by
  unfold readAt
  rw [if_pos h0]
  have : i.toNat < P.length := by omega
  simp [List.getElem?_set_self, this]

theorem readAt_set_ne {α : Type} (P : List α) (i j : Int) (v : α) (h0 : 0 ≤ i) (hne : j ≠ i) :
    readAt (P.set i.toNat v) j = readAt P j := by
  unfold readAt
  by_cases hj : 0 ≤ j
  · rw [if_pos hj, if_pos hj]
    have : i.toNat ≠ j.toNat := by omega
    simp [List.getElem?_set_ne this]
  · rw [if_neg hj, if_neg hj]

theorem writeAt_eq {α : Type} (P : List α) (i : Int) (v : α) (h0 : 0 ≤ i) (h1 : i < P.length) :
    writeAt P i v = some (P.set i.toNat v) := by
  unfold writeAt
  rw [if_pos]
  constructor
  · exact h0
  · omega

/-- The expansion loop started from a valid radius returns the array with entry `i` set to the
maximal radius and every other entry untouched. -/
theorem expandLoop_spec (s : List Char) (h1 : '^' ∉ s) (h2 : '$' ∉ s) (i : Int)
    (hi : 1 ≤ i) (hi2 : i ≤ 2 * (s.length : Int) + 1) :
    ∀ (fuel : Nat) (P : List Int) (p : Int), readAt P i = some p → 0 ≤ p →
      Rad (transform s) i p → i - p ≤ fuel →
      ∃ P2 r, expandLoop (transform s) i fuel P = some P2 ∧ P2.length = P.length ∧
        readAt P2 i = some r ∧ (∀ j, j ≠ i → readAt P2 j = readAt P j) ∧
        p ≤ r ∧ Rad (transform s) i r ∧ Stop (transform s) i r := by
  intro fuel
  induction fuel with
  | zero =>
    intro P p hP hp hr hf
    have := rad_bound s h1 h2 i p hi hi2 hr
    simp at hf
    omega
  | succ fuel ih =>
    intro P p hP hp hr hf
    have hb := rad_bound s h1 h2 i p hi hi2 hr
    obtain ⟨a, ha⟩ := readAt_isSome (transform s) (i + 1 + p) (by omega)
      (by rw [length_transform]; push_cast; omega)
    obtain ⟨b, hb2⟩ := readAt_isSome (transform s) (i - 1 - p) (by omega)
      (by rw [length_transform]; push_cast; omega)
    have hPi := readAt_eq_some hP
    by_cases hab : a = b
    · have hm : Match (transform s) i p := ⟨a, ha, hab ▸ hb2⟩
      have hr2 := rad_succ hr hm
      have hw := writeAt_eq P i (p + 1) hPi.1 hPi.2
      obtain ⟨P2, r, e, hl, hri, hfr, hle, hR, hS⟩ :=
        ih (P.set i.toNat (p + 1)) (p + 1) (readAt_set_self P i _ hPi.1 hPi.2) (by omega) hr2
          (by push_cast at hf; omega)
      refine ⟨P2, r, ?_, ?_, hri, ?_, by omega, hR, hS⟩
      · simp only [expandLoop, hP, ha, hb2, hab, hw, Option.bind_eq_bind, Option.some_bind,
          if_true]
        exact e
      · rw [hl]; simp
      · intro j hj
        rw [hfr j hj, readAt_set_ne P i j _ hPi.1 hj]
    · refine ⟨P, p, ?_, rfl, hP, fun _ _ => rfl, le_refl _, hr, ⟨a, b, ha, hb2, hab⟩⟩
      simp only [expandLoop, hP, ha, hb2, hab, Option.bind_eq_bind, Option.some_bind,
          if_false]

theorem foldlM_range'_inv {σ : Type} (f : σ → Nat → Option σ) (Inv : Nat → σ → Prop) :
    ∀ (k a : Nat) (s0 : σ), Inv a s0 →
      (∀ i s, a ≤ i → i < a + k → Inv i s → ∃ s2, f s i = some s2 ∧ Inv (i + 1) s2) →
      ∃ s2, (List.range' a k).foldlM f s0 = some s2 ∧ Inv (a + k) s2 := by
  intro k
  induction k with
  | zero => intro a s0 h0 _; exact ⟨s0, by simp, by simpa using h0⟩
  | succ k ih =>
    intro a s0 h0 hstep
    obtain ⟨s1, e1, h1⟩ := hstep a s0 (le_refl _) (by omega) h0
    obtain ⟨s2, e2, h2⟩ := ih (a + 1) s1 h1 (fun i s hi hi2 hI => hstep i s (by omega) (by omega) hI)
    refine ⟨s2, ?_, ?_⟩
    · rw [List.range'_succ, List.foldlM_cons]
      simp only [e1, Option.bind_eq_bind, Option.some_bind]
      exact e2
    · have : a + (k + 1) = a + 1 + k := by omega
      rw [this]; exact h2

/-- A valid radius makes the string symmetric about its centre on the whole covered interval. -/
theorem rad_sym {t : List Char} {c R : Int} (h : Rad t c R) (hc0 : 0 ≤ c) (hc1 : c < t.length)
    (x y : Int) (hxy : x + y = 2 * c) (hx0 : c - R ≤ x) (hx1 : x ≤ c + R) :
    ∃ ch, readAt t x = some ch ∧ readAt t y = some ch := by
  rcases lt_trichotomy x c with hlt | heq | hgt
  · obtain ⟨ch, e1, e2⟩ := h (c - 1 - x) (by omega) (by omega)
    have a1 : c + 1 + (c - 1 - x) = y := by omega
    have a2 : c - 1 - (c - 1 - x) = x := by omega
    rw [a1] at e1; rw [a2] at e2
    exact ⟨ch, e2, e1⟩
  · have hy : y = c := by omega
    rw [hy, heq]
    obtain ⟨ch, e⟩ := readAt_isSome t c hc0 hc1
    exact ⟨ch, e, e⟩
  · obtain ⟨ch, e1, e2⟩ := h (x - c - 1) (by omega) (by omega)
    have a1 : c + 1 + (x - c - 1) = x := by omega
    have a2 : c - 1 - (x - c - 1) = y := by omega
    rw [a1] at e1; rw [a2] at e2
    exact ⟨ch, e1, e2⟩

/-- Mirror initialisation: inside the rightmost palindrome the radius copied from the mirror
position, capped at the right boundary, is valid. -/
theorem rad_mirror {t : List Char} {c pc i pm : Int} (hc : Rad t c pc) (hc0 : 0 ≤ c)
    (hc1 : c < t.length) (hci : c < i) (hir : i < c + pc) (hm : Rad t (2 * c - i) pm) :
    Rad t i (min (c + pc - i) pm) := by
  intro m h0 h1
  have hm1 : m < c + pc - i := lt_of_lt_of_le h1 (min_le_left _ _)
  have hm2 : m < pm := lt_of_lt_of_le h1 (min_le_right _ _)
  obtain ⟨a, ea1, ea2⟩ := rad_sym hc hc0 hc1 (i + 1 + m) (2 * c - i - 1 - m) (by omega)
    (by omega) (by omega)
  obtain ⟨b, eb1, eb2⟩ := rad_sym hc hc0 hc1 (i - 1 - m) (2 * c - i + 1 + m) (by omega)
    (by omega) (by omega)
  obtain ⟨d, ed1, ed2⟩ := hm m h0 hm2
  rw [ed1] at eb2
  rw [ed2] at ea2
  have : a = b := by
    simp at ea2 eb2
    rw [← ea2, ← eb2]
  exact ⟨a, ea1, this ▸ eb1⟩

theorem readAt_replicate (n : Nat) (j : Int) (h0 : 0 ≤ j) (h1 : j < n) :
    readAt (List.replicate n (0 : Int)) j = some 0 := by
  unfold readAt
  rw [if_pos h0]
  have : j.toNat < n := by omega
  simp [List.getElem?_replicate, this]

theorem fillInv_init (s : List Char) :
    FillInv s 1 ⟨List.replicate (transform s).length 0, 0, 0⟩ := by
  have hl := length_transform s
  refine ⟨by simp [hl], ?_, ?_, ?_, le_refl _, by simp, ?_⟩
  · intro j h0 h1
    exact ⟨0, readAt_replicate _ j h0 (by rw [hl]; push_cast; omega), le_refl _, rad_zero _ _⟩
  · intro j h1 h2; simp at h2; omega
  · intro j h0 h1
    exact readAt_replicate _ j (by omega) (by rw [hl]; push_cast; omega)
  · exact ⟨0, readAt_replicate _ 0 (le_refl _) (by rw [hl]; push_cast; omega), by simp⟩

theorem fillStep_spec (s : List Char) (h1 : '^' ∉ s) (h2 : '$' ∉ s) (i : Nat) (st : MState)
    (hi : 1 ≤ i) (hi2 : i < 1 + (2 * s.length + 1)) (inv : FillInv s i st) :
    ∃ st2, fillStep (transform s) st i = some st2 ∧ FillInv s (i + 1) st2 := by
  have hlt := length_transform s
  obtain ⟨pc, hpc, hright⟩ := inv.right_eq
  have hiI : (1 : Int) ≤ (i : Int) := by exact_mod_cast hi
  have hiI2 : (i : Int) ≤ 2 * (s.length : Int) + 1 := by omega
  have hPi0 := inv.fresh i (le_refl _) (by omega)
  have hPlen : ((i : Int)) < st.P.length := by rw [inv.len]; push_cast; omega
  -- the initial radius
  have hinit : ∃ P1 v, fillStep (transform s) st i =
        ((expandLoop (transform s) i (transform s).length P1).bind fun P2 =>
          (readAt P2 i).bind fun pi =>
            if (i : Int) + pi > st.right then some ⟨P2, i, i + pi⟩
            else some ⟨P2, st.center, st.right⟩) ∧
      P1.length = st.P.length ∧ readAt P1 i = some v ∧
      (∀ j, j ≠ (i : Int) → readAt P1 j = readAt st.P j) ∧ 0 ≤ v ∧
      Rad (transform s) i v := by
    by_cases hlt2 : (i : Int) < st.right
    · obtain ⟨pc2, hpc2, hpc0, hradc⟩ := inv.valid st.center inv.center_lo
        (by have := inv.center_hi; omega)
      rw [hpc] at hpc2
      simp at hpc2
      subst hpc2
      have hch := inv.center_hi
      have hcb : 0 ≤ st.center - pc := by
        obtain ⟨c, _, e⟩ := hradc (pc - 1) (by omega) (by omega)
        have := (readAt_eq_some e).1
        omega
      obtain ⟨pm, hpm, hpm0, hradm⟩ := inv.valid (2 * st.center - i) (by omega) (by omega)
      have hw := writeAt_eq st.P i (min (st.right - i) pm) (by omega) hPlen
      refine ⟨st.P.set (i : Int).toNat (min (st.right - i) pm), min (st.right - i) pm, ?_, by simp,
        readAt_set_self _ _ _ (by omega) hPlen, fun j hj => readAt_set_ne _ _ _ _ (by omega) hj,
        le_min (by omega) hpm0, ?_⟩
      · unfold fillStep
        simp only [if_pos hlt2, hpm, hw, Option.bind_eq_bind, Option.some_bind]
      · rw [hright]
        exact rad_mirror hradc inv.center_lo (by rw [hlt]; push_cast; omega) hch (by omega) hradm
    · refine ⟨st.P, 0, ?_, rfl, hPi0, fun _ _ => rfl, le_refl _, rad_zero _ _⟩
      unfold fillStep
      simp only [if_neg hlt2, Option.bind_eq_bind, Option.some_bind]
  obtain ⟨P1, v, e1, hl1, hv1, hf1, hv0, hrad1⟩ := hinit
  obtain ⟨P2, r, e2, hl2, hr2, hf2, hvr, hrad2, hstop2⟩ :=
    expandLoop_spec s h1 h2 i hiI hiI2 (transform s).length P1 v hv1 hv0 hrad1
      (by rw [hlt]; push_cast; omega)
  have hframe : ∀ j, j ≠ (i : Int) → readAt P2 j = readAt st.P j := fun j hj => by
    rw [hf2 j hj, hf1 j hj]
  have hvalid : ∀ j : Int, 0 ≤ j → j < 2 * (s.length : Int) + 3 →
      ∃ r, readAt P2 j = some r ∧ 0 ≤ r ∧ Rad (transform s) j r := by
    intro j h0 h1
    by_cases hj : j = i
    · subst hj; exact ⟨r, hr2, by omega, hrad2⟩
    · rw [hframe j hj]; exact inv.valid j h0 h1
  have hmax : ∀ j : Int, 1 ≤ j → j < ((i + 1 : Nat) : Int) → ∀ r, readAt P2 j = some r →
      Stop (transform s) j r := by
    intro j h0 h1 r0 hr0
    by_cases hj : j = i
    · subst hj; rw [hr2] at hr0; simp at hr0; subst hr0; exact hstop2
    · rw [hframe j hj] at hr0; exact inv.maximal j h0 (by push_cast at h1; omega) r0 hr0
  have hfresh : ∀ j : Int, ((i + 1 : Nat) : Int) ≤ j → j < 2 * (s.length : Int) + 3 →
      readAt P2 j = some 0 := by
    intro j h0 h1
    push_cast at h0
    rw [hframe j (by omega)]; exact inv.fresh j (by omega) h1
  have hlen : P2.length = 2 * s.length + 3 := by rw [hl2, hl1, inv.len]
  by_cases hupd : (i : Int) + r > st.right
  · refine ⟨⟨P2, i, i + r⟩, ?_, ⟨hlen, hvalid, hmax, hfresh, by simp, by simp, ⟨r, hr2, rfl⟩⟩⟩
    rw [e1]
    simp only [e2, hr2, Option.some_bind, if_pos hupd]
  · refine ⟨⟨P2, st.center, st.right⟩, ?_, ⟨hlen, hvalid, hmax, hfresh, inv.center_lo,
      by have := inv.center_hi; push_cast; omega, ⟨pc, ?_, hright⟩⟩⟩
    · rw [e1]
      simp only [e2, hr2, Option.some_bind, if_neg hupd]
    · show readAt P2 st.center = some pc
      rw [hframe _ (by have := inv.center_hi; omega)]; exact hpc

theorem pickInv_init (P : List Int) : PickInv P 1 (0, 0) :=
  ⟨le_refl _, fun j h0 h1 => by simp at h1; omega, Or.inl ⟨rfl, rfl⟩⟩

theorem pickStep_spec (P : List Int) (i : Nat) (acc : Int × Int) (hi : 1 ≤ i)
    (hlen : i < P.length) (inv : PickInv P i acc) :
    ∃ acc2, pickStep P acc i = some acc2 ∧ PickInv P (i + 1) acc2 := by
  obtain ⟨pi, hpi⟩ := readAt_isSome P i (by omega) (by exact_mod_cast hlen)
  by_cases hgt : pi > acc.1
  · refine ⟨(pi, i), ?_, ⟨?_, ?_, Or.inr ⟨?_, ?_, ?_, hpi, ?_⟩⟩⟩
    · unfold pickStep
      simp only [hpi, Option.bind_eq_bind, Option.some_bind, if_pos hgt]
    · have := inv.nonneg; show 0 ≤ pi; omega
    · intro j h0 h1 r hr
      show r ≤ pi
      by_cases hj : j = i
      · subst hj; rw [hpi] at hr; simp at hr; omega
      · have := inv.upper j h0 (by push_cast at h1; omega) r hr; omega
    · have := inv.nonneg; show 0 < pi; omega
    · show (1 : Int) ≤ (i : Int); exact_mod_cast hi
    · show (i : Int) < ((i + 1 : Nat) : Int); push_cast; omega
    · intro j h0 h1 r hr
      show r < pi
      have := inv.upper j h0 h1 r hr; omega
  · refine ⟨acc, ?_, ⟨inv.nonneg, ?_, ?_⟩⟩
    · unfold pickStep
      simp only [hpi, Option.bind_eq_bind, Option.some_bind, if_neg hgt]
    · intro j h0 h1 r hr
      by_cases hj : j = i
      · subst hj; rw [hpi] at hr; simp at hr; omega
      · exact inv.upper j h0 (by push_cast at h1; omega) r hr
    · rcases inv.first with h | ⟨a, b, c, d, e⟩
      · exact Or.inl h
      · exact Or.inr ⟨a, b, by push_cast; omega, d, e⟩

theorem getElem?_substr (s : List Char) (a L k : Nat) (hk : k < L) :
    ((s.drop a).take L)[k]? = s[a + k]? := by
  rw [List.getElem?_take_of_lt hk, List.getElem?_drop]

theorem length_substr (s : List Char) (a L : Nat) (h : a + L ≤ s.length) :
    ((s.drop a).take L).length = L := by
  simp; omega

theorem pal_to_rad (s : List Char) (a L : Nat) (hb : a + L ≤ s.length)
    (hp : IsPal ((s.drop a).take L)) :
    Rad (transform s) (2 * (a : Int) + L + 1) L := by
  intro m h0 h1
  have hlen := length_substr s a L hb
  rcases Int.emod_two_eq_zero_or_one ((L : Int) - m) with hev | hodd
  · -- both positions hold characters of the input
    obtain ⟨u, hu⟩ : ∃ u : Nat, (L : Int) - m = 2 * (u : Int) + 2 :=
      ⟨(((L : Int) - m - 2) / 2).toNat, by omega⟩
    obtain ⟨mn, hmn⟩ : ∃ mn : Nat, m = mn := ⟨m.toNat, by omega⟩
    subst hmn
    have ex : 2 * (a : Int) + L + 1 + 1 + (mn : Int) = 2 * ((a + (mn + u + 1) : Nat) : Int) + 2 := by
      push_cast; omega
    have ey : 2 * (a : Int) + L + 1 - 1 - (mn : Int) = 2 * ((a + u : Nat) : Int) + 2 := by
      push_cast; omega
    have hL : L = mn + 2 * u + 2 := by omega
    rw [Match, ex, ey, transform_even s _ (by omega), transform_even s _ (by omega)]
    have hq : ((s.drop a).take L).reverse[u]? = ((s.drop a).take L)[u]? := by rw [hp]
    rw [List.getElem?_reverse (by omega), hlen, getElem?_substr s a L _ (by omega),
      getElem?_substr s a L _ (by omega)] at hq
    have e3 : a + (L - 1 - u) = a + (mn + u + 1) := by omega
    rw [e3] at hq
    obtain ⟨c, hc⟩ : ∃ c, s[a + u]? = some c :=
      ⟨s[a + u], List.getElem?_eq_getElem (by omega)⟩
    exact ⟨c, hq ▸ hc, hc⟩
  · -- both positions hold separators
    obtain ⟨u, hu⟩ : ∃ u : Nat, (L : Int) - m = 2 * (u : Int) + 1 :=
      ⟨(((L : Int) - m - 1) / 2).toNat, by omega⟩
    obtain ⟨mn, hmn⟩ : ∃ mn : Nat, m = mn := ⟨m.toNat, by omega⟩
    subst hmn
    have ex : 2 * (a : Int) + L + 1 + 1 + (mn : Int) = 2 * ((a + mn + u + 1 : Nat) : Int) + 1 := by
      push_cast; omega
    have ey : 2 * (a : Int) + L + 1 - 1 - (mn : Int) = 2 * ((a + u : Nat) : Int) + 1 := by
      push_cast; omega
    rw [Match, ex, ey, transform_odd s _ (by omega), transform_odd s _ (by omega)]
    exact ⟨'#', rfl, rfl⟩

theorem stop_parity (s : List Char) (c r : Int) (hr : 0 ≤ r)
    (hs : Stop (transform s) c r) : ∃ a : Nat, c - r - 1 = 2 * (a : Int) := by
  obtain ⟨x, y, hx, hy, hxy⟩ := hs
  have bx := readAt_eq_some hx
  have b_y := readAt_eq_some hy
  rw [length_transform] at bx b_y
  push_cast at bx b_y
  rcases Int.emod_two_eq_zero_or_one (c - r - 1) with hev | hodd
  · exact ⟨((c - r - 1) / 2).toNat, by omega⟩
  · exfalso
    obtain ⟨u, hu⟩ : ∃ u : Nat, c - 1 - r = 2 * (u : Int) + 1 :=
      ⟨((c - 1 - r - 1) / 2).toNat, by omega⟩
    have ex : c + 1 + r = 2 * ((u + r.toNat + 1 : Nat) : Int) + 1 := by
      push_cast; omega
    rw [ex, transform_odd s _ (by omega)] at hx
    rw [hu, transform_odd s _ (by omega)] at hy
    simp at hx hy
    exact hxy (hx ▸ hy ▸ rfl)

theorem rad_to_pal (s : List Char) (h1 : '^' ∉ s) (h2 : '$' ∉ s) (c : Int) (a L : Nat)
    (hc : 1 ≤ c) (hc2 : c ≤ 2 * (s.length : Int) + 1) (hr : Rad (transform s) c L)
    (he : c - L - 1 = 2 * (a : Int)) :
    a + L ≤ s.length ∧ IsPal ((s.drop a).take L) := by
  have hb := rad_bound s h1 h2 c L hc hc2 hr
  have hbound : a + L ≤ s.length := by omega
  refine ⟨hbound, ?_⟩
  have hlen := length_substr s a L hbound
  unfold IsPal
  apply List.ext_getElem?
  intro k
  by_cases hk : k < L
  · rw [List.getElem?_reverse (by omega), hlen, getElem?_substr s a L _ (by omega),
      getElem?_substr s a L _ hk]
    obtain ⟨ch, e1, e2⟩ := rad_sym hr (by omega) (by rw [length_transform]; push_cast; omega)
      (2 * ((a + (L - 1 - k) : Nat) : Int) + 2) (2 * ((a + k : Nat) : Int) + 2)
      (by push_cast; omega) (by push_cast; omega) (by push_cast; omega)
    rw [transform_even s _ (by omega)] at e1 e2
    rw [e1, e2]
  · rw [List.getElem?_eq_none (by simp; omega), List.getElem?_eq_none (by omega)]

/-- Result of the radius-filling loop on a sentinel-free input. -/
theorem fill_run (s : List Char) (h1 : '^' ∉ s) (h2 : '$' ∉ s) :
    ∃ st, (List.range' 1 (2 * s.length + 1)).foldlM (fillStep (transform s))
        ⟨List.replicate (transform s).length 0, 0, 0⟩ = some st ∧
      FillInv s (1 + (2 * s.length + 1)) st :=
  foldlM_range'_inv (fillStep (transform s)) (FillInv s) (2 * s.length + 1) 1 _ (fillInv_init s)
    (fun i st hi hi2 inv => fillStep_spec s h1 h2 i st hi hi2 inv)

theorem pick_run (P : List Int) (k : Nat) (hlen : 1 + k ≤ P.length) :
    ∃ acc, (List.range' 1 k).foldlM (pickStep P) (0, 0) = some acc ∧ PickInv P (1 + k) acc :=
  foldlM_range'_inv (pickStep P) (PickInv P) k 1 _ (pickInv_init P)
    (fun i acc hi hi2 inv => pickStep_spec P i acc hi (by omega) inv)

/-- Full functional description of the palindrome search on a sentinel-free input. -/
theorem manacher_run (s : List Char) (h1 : '^' ∉ s) (h2 : '$' ∉ s) :
    ∃ a L : Nat, longest_palindrome_manacher s = some ((s.drop a).take L, (a : Int), (L : Int)) ∧
      a + L ≤ s.length ∧ IsPal ((s.drop a).take L) ∧ (s = [] → a = 0 ∧ L = 0) ∧
      ∀ a2 L2 : Nat, a2 + L2 ≤ s.length → IsPal ((s.drop a2).take L2) →
        L2 ≤ L ∧ (L2 = L → a ≤ a2) := by
  by_cases hemp : s = []
  · subst hemp
    refine ⟨0, 0, by simp [longest_palindrome_manacher], by simp, by simp [IsPal],
      fun _ => ⟨rfl, rfl⟩, ?_⟩
    intro a2 L2 hb _
    simp at hb
    omega
  obtain ⟨st, efill, finv⟩ := fill_run s h1 h2
  obtain ⟨acc, epick, pinv⟩ := pick_run st.P (2 * s.length + 1) (by rw [finv.len]; omega)
  obtain ⟨m, c⟩ := acc
  have hlt := length_transform s
  have hn : (((transform s).length : Int) - 2).toNat = 2 * s.length + 1 := by
    rw [hlt]; push_cast; omega
  have hisE : s.isEmpty = false := by
    cases s with
    | nil => exact absurd rfl hemp
    | cons _ _ => rfl
  -- every palindromic substring is bounded by the radius stored at its centre
  have hcover : ∀ a2 L2 : Nat, a2 + L2 ≤ s.length → IsPal ((s.drop a2).take L2) →
      ∃ r, readAt st.P (2 * (a2 : Int) + L2 + 1) = some r ∧ (L2 : Int) ≤ r ∧ r ≤ m := by
    intro a2 L2 hb hp
    have hrad := pal_to_rad s a2 L2 hb hp
    obtain ⟨r, hr, hr0, _⟩ := finv.valid (2 * (a2 : Int) + L2 + 1) (by omega) (by omega)
    have hstop := finv.maximal _ (by omega) (by push_cast; omega) r hr
    exact ⟨r, hr, rad_le_of_stop hr0 hrad hstop,
      pinv.upper _ (by omega) (by push_cast; omega) r hr⟩
  have hrun : longest_palindrome_manacher s =
      (if m = 0 then some ([], 0, 0) else
        (substr s ((c - m - 1).tdiv 2) m).bind fun pal =>
          some (pal, (c - m - 1).tdiv 2, m)) := by
    unfold longest_palindrome_manacher
    simp only [hisE, hn, efill, epick, Option.bind_eq_bind, Option.some_bind]
    simp
  rcases pinv.first with ⟨hm0, _⟩ | ⟨hmpos, hc1, hc2, hPc, hfirst⟩
  · -- no positive radius was found
    simp only at hm0
    refine ⟨0, 0, ?_, by omega, by simp [IsPal], fun _ => ⟨rfl, rfl⟩, ?_⟩
    · rw [hrun, if_pos hm0]; simp
    · intro a2 L2 hb hp
      obtain ⟨r, _, hle, hle2⟩ := hcover a2 L2 hb hp
      omega
  · simp only at hmpos hc1 hc2 hPc hfirst
    push_cast at hc2
    obtain ⟨r, hr, hr0, hrad⟩ := finv.valid c (by omega) (by omega)
    rw [hPc] at hr
    simp at hr
    subst hr
    have hstop := finv.maximal c hc1 (by push_cast; omega) m hPc
    obtain ⟨a, ha⟩ := stop_parity s c m hr0 hstop
    obtain ⟨L, hL⟩ : ∃ L : Nat, m = L := ⟨m.toNat, by omega⟩
    subst hL
    obtain ⟨hbound, hpal⟩ := rad_to_pal s h1 h2 c a L hc1 (by omega) hrad ha
    have hstart : (c - (L : Int) - 1).tdiv 2 = a := by
      rw [ha, Int.mul_tdiv_cancel_left _ (by norm_num)]
    refine ⟨a, L, ?_, hbound, hpal, fun h => absurd h hemp, ?_⟩
    · rw [hrun, if_neg (by omega), hstart]
      have : substr s (a : Int) (L : Int) = some ((s.drop a).take L) := by
        unfold substr
        rw [if_pos ⟨by omega, by simp; omega⟩, if_neg (by omega)]
        simp
      rw [this]; rfl
    · intro a2 L2 hb hp
      obtain ⟨r, hr, hle, hle2⟩ := hcover a2 L2 hb hp
      refine ⟨by omega, fun hLL => ?_⟩
      subst hLL
      by_contra hlt2
      have := hfirst (2 * (a2 : Int) + L2 + 1) (by omega) (by omega) r hr
      omega

theorem MaxRun.bound {data : List Char} {a L : Nat} (h : MaxRun data a L) :
    a + L ≤ data.length := by
  have h0 := h.2.1 (a + L - 1) (by have := h.1; omega) (by have := h.1; omega)
  have := (List.getElem?_eq_some_iff.mp h0).1
  omega

theorem zeroRunLoop_spec (data : List Char) :
    ∀ (fuel i count : Nat), data.length - i < fuel →
      ∃ e, zeroRunLoop data fuel i count = some (e, count + (e - i)) ∧ i ≤ e ∧
        (i ≤ data.length → e ≤ data.length) ∧
        (∀ k, i ≤ k → k < e → data[k]? = some '0') ∧ data[e]? ≠ some '0' := by
  intro fuel
  induction fuel with
  | zero => intro i count h; omega
  | succ fuel ih =>
    intro i count h
    by_cases hc : i < data.length ∧ data[i]? = some '0'
    · obtain ⟨e, he, hie, hel, hz, hend⟩ := ih (i + 1) (count + 1) (by omega)
      refine ⟨e, ?_, by omega, fun _ => hel (by omega), ?_, hend⟩
      · rw [zeroRunLoop, if_pos hc, he]
        congr 2
        omega
      · intro k hk1 hk2
        by_cases hki : k = i
        · subst hki; exact hc.2
        · exact hz k (by omega) hk2
    · refine ⟨i, ?_, le_refl _, fun h => h, fun k hk1 hk2 => by omega, ?_⟩
      · rw [zeroRunLoop, if_neg hc]; simp
      · intro h0
        apply hc
        refine ⟨?_, h0⟩
        by_contra hge
        rw [List.getElem?_eq_none (by omega)] at h0
        simp at h0

theorem scanInv_init (data : List Char) : ScanInv data 0 [] :=
  ⟨Nat.zero_le _, fun k h => by omega, fun a L => by simp, fun p hp => by simp at hp,
    List.Pairwise.nil⟩

theorem scanLoop_spec (data : List Char) :
    ∀ (fuel i : Nat) (seq : List (Nat × Nat)), ScanInv data i seq → data.length - i < fuel →
      ∃ runs, scanLoop data fuel i seq = some runs ∧ ScanInv data data.length runs := by
  intro fuel
  induction fuel with
  | zero => intro i seq _ h; omega
  | succ fuel ih =>
    intro i seq inv h
    by_cases hi : i < data.length
    · by_cases hz : data[i]? = some '0'
      · obtain ⟨e, he, hie, hel, hzero, hend⟩ :=
          zeroRunLoop_spec data (data.length + 1) i 0 (by omega)
        have hel2 := hel inv.bound
        have hne : i ≠ e := fun h => hend (h ▸ hz)
        have hrun : MaxRun data i (e - i) := by
          refine ⟨by omega, ?_, ?_, ?_⟩
          · intro k h1 h2; exact hzero k h1 (by omega)
          · intro k hk hk0; exact inv.edge k hk hk0 hz
          · have : i + (e - i) = e := by omega
            rw [this]; exact hend
        have inv2 : ScanInv data e (seq ++ [(i, 0 + (e - i))]) := by
          have e0 : 0 + (e - i) = e - i := by omega
          rw [e0]
          refine ⟨hel2, fun _ _ _ => hend, ?_, ?_, ?_⟩
          · intro a L
            rw [List.mem_append, inv.content a L]
            constructor
            · rintro (⟨hm, ha⟩ | hmem)
              · exact ⟨hm, by omega⟩
              · simp at hmem
                obtain ⟨rfl, rfl⟩ := hmem
                exact ⟨hrun, by omega⟩
            · rintro ⟨hm, ha⟩
              by_cases hai : a < i
              · exact Or.inl ⟨hm, hai⟩
              · right
                obtain ⟨hL, hz2, hbefore, hafter⟩ := hm
                have hai2 : a = i := by
                  by_contra hne2
                  exact hbefore (a - 1) (by omega) (hzero (a - 1) (by omega) (by omega))
                subst hai2
                have hLe : a + L = e := by
                  rcases Nat.lt_trichotomy (a + L) e with h1 | h1 | h1
                  · exact absurd (hzero (a + L) (by omega) h1) hafter
                  · exact h1
                  · exact absurd (hz2 e (by omega) h1) hend
                simp
                omega
          · intro p hp
            rw [List.mem_append] at hp
            rcases hp with hp | hp
            · have := inv.ends p hp; omega
            · simp at hp; subst hp; simp; omega
          · rw [List.pairwise_append]
            refine ⟨inv.order, List.pairwise_singleton _ _, ?_⟩
            intro p hp q hq
            simp at hq
            subst hq
            have h1 := inv.ends p hp
            have h2 := ((inv.content p.1 p.2).mp hp).2
            exact ⟨h2, h1⟩
        obtain ⟨runs, hr, hinv⟩ := ih e _ inv2 (by omega)
        refine ⟨runs, ?_, hinv⟩
        rw [scanLoop, if_pos hi, if_pos hz]
        simp only [he, Option.bind_eq_bind, Option.some_bind]
        exact hr
      · have inv2 : ScanInv data (i + 1) seq := by
          refine ⟨by omega, ?_, ?_, ?_, inv.order⟩
          · intro k hk hk0
            have : k = i := by omega
            subst this
            exact absurd hk0 hz
          · intro a L
            rw [inv.content a L]
            constructor
            · rintro ⟨hm, ha⟩; exact ⟨hm, by omega⟩
            · rintro ⟨hm, ha⟩
              refine ⟨hm, ?_⟩
              by_contra hge
              have : a = i := by omega
              subst this
              exact hz (hm.2.1 a (le_refl _) (by have := hm.1; omega))
          · intro p hp; have := inv.ends p hp; omega
        obtain ⟨runs, hr, hinv⟩ := ih (i + 1) seq inv2 (by omega)
        refine ⟨runs, ?_, hinv⟩
        rw [scanLoop, if_pos hi, if_neg hz]
        exact hr
    · refine ⟨seq, ?_, ?_⟩
      · rw [scanLoop, if_neg hi]
      · have : i = data.length := by have := inv.bound; omega
        subst this
        exact inv

theorem find_zero_sequences_spec (data : List Char) :
    ∃ runs, find_zero_sequences data = some runs ∧
      (∀ a L, (a, L) ∈ runs ↔ MaxRun data a L) ∧
      runs.Pairwise (fun p q => p.1 < q.1 ∧ p.1 + p.2 ≤ q.1) := by
  obtain ⟨runs, hr, inv⟩ := scanLoop_spec data (data.length + 1) 0 [] (scanInv_init data)
    (by omega)
  refine ⟨runs, hr, ?_, inv.order⟩
  intro a L
  rw [inv.content a L]
  constructor
  · exact fun h => h.1
  · intro h
    exact ⟨h, by have := h.1; have := h.bound; omega⟩

theorem replace_spec (r : List Char) (j n : Nat) (pat : List Char) (hp : pat.length = n)
    (hb : j + n ≤ r.length) :
    ∃ r2, replace r j n pat = some r2 ∧ r2.length = r.length ∧
      ∀ i, r2[i]? = if j ≤ i ∧ i < j + n then pat[i - j]? else r[i]? := by
  refine ⟨r.take j ++ pat ++ r.drop (j + n), ?_, ?_, ?_⟩
  · rw [replace, if_pos (by omega)]
  · simp [hp]; omega
  · intro i
    have hlt : (r.take j).length = j := by simp; omega
    by_cases h1 : i < j
    · rw [if_neg (by omega), List.append_assoc, List.getElem?_append_left (by omega),
        List.getElem?_take_of_lt h1]
    · by_cases h2 : i < j + n
      · rw [if_pos ⟨by omega, h2⟩, List.append_assoc, List.getElem?_append_right (by omega),
          List.getElem?_append_left (by omega), hlt]
      · rw [if_neg (by omega), List.getElem?_append_right (by simp [hp]; omega),
          List.getElem?_drop]
        congr 1
        simp [hp]
        omega

theorem b8zsLoop_spec (start length : Nat) :
    ∀ (fuel k : Nat) (r : List Char), start + length ≤ r.length → k ≤ length / 8 →
      length / 8 - k < fuel →
      ∃ r2, b8zsLoop start length fuel (start + 8 * k) r = some r2 ∧ r2.length = r.length ∧
        ∀ i, r2[i]? = if start + 8 * k ≤ i ∧ i < start + 8 * (length / 8)
          then "000VB0VB".toList[(i - start) % 8]? else r[i]? := by
  intro fuel
  induction fuel with
  | zero => intro k r _ _ h; omega
  | succ fuel ih =>
    intro k r hb hk hf
    by_cases hc : ((start + 8 * k : Nat) : Int) ≤ (start : Int) + (length : Int) - 8
    · have hlen : start + 8 * k + 8 ≤ r.length := by omega
      obtain ⟨r1, e1, hl1, hr1⟩ := replace_spec r (start + 8 * k) 8 "000VB0VB".toList rfl hlen
      obtain ⟨r2, e2, hl2, hr2⟩ := ih (k + 1) r1 (by omega) (by omega) (by omega)
      refine ⟨r2, ?_, by omega, ?_⟩
      · rw [b8zsLoop, if_pos hc, if_pos hlen]
        simp only [e1, Option.bind_eq_bind, Option.some_bind]
        exact e2
      · intro i
        rw [hr2 i, hr1 i]
        by_cases h1 : start + 8 * (k + 1) ≤ i ∧ i < start + 8 * (length / 8)
        · rw [if_pos h1, if_pos ⟨by omega, h1.2⟩]
        · rw [if_neg h1]
          by_cases h2 : start + 8 * k ≤ i ∧ i < start + 8 * k + 8
          · rw [if_pos h2, if_pos ⟨h2.1, by omega⟩]
            congr 1
            omega
          · rw [if_neg h2, if_neg (by omega)]
    · refine ⟨r, ?_, rfl, ?_⟩
      · rw [b8zsLoop, if_neg hc]
      · intro i
        rw [if_neg (by omega)]

theorem b8zsStep_spec (r : List Char) (p : Nat × Nat) (hb : p.1 + p.2 ≤ r.length) :
    ∃ r2, b8zsStep r p = some r2 ∧ r2.length = r.length ∧
      ∀ i, r2[i]? = if p.1 ≤ i ∧ i < p.1 + 8 * (p.2 / 8)
        then "000VB0VB".toList[(i - p.1) % 8]? else r[i]? := by
  by_cases h8 : p.2 ≥ 8
  · obtain ⟨r2, e, hl, hr⟩ := b8zsLoop_spec p.1 p.2 (p.2 + 1) 0 r hb (by omega) (by omega)
    refine ⟨r2, ?_, hl, ?_⟩
    · rw [b8zsStep, if_pos h8]; simpa using e
    · intro i; rw [hr i]; simp
  · refine ⟨r, ?_, rfl, ?_⟩
    · rw [b8zsStep, if_neg h8]
    · intro i; rw [if_neg (by omega)]

theorem b8zs_fold_spec :
    ∀ (l : List (Nat × Nat)) (r : List Char),
      l.Pairwise (fun p q => p.1 < q.1 ∧ p.1 + p.2 ≤ q.1) →
      (∀ p ∈ l, p.1 + p.2 ≤ r.length) →
      ∃ r2, l.foldlM b8zsStep r = some r2 ∧ r2.length = r.length ∧
        (∀ p ∈ l, ∀ i, p.1 ≤ i → i < p.1 + 8 * (p.2 / 8) →
          r2[i]? = "000VB0VB".toList[(i - p.1) % 8]?) ∧
        (∀ i, (∀ p ∈ l, ¬(p.1 ≤ i ∧ i < p.1 + 8 * (p.2 / 8))) → r2[i]? = r[i]?) := by
  intro l
  induction l with
  | nil =>
    intro r _ _
    exact ⟨r, rfl, rfl, fun p hp => by simp at hp, fun _ _ => rfl⟩
  | cons p l ih =>
    intro r hpw hb
    rw [List.pairwise_cons] at hpw
    obtain ⟨r1, e1, hl1, hr1⟩ := b8zsStep_spec r p (hb p (List.mem_cons_self _ _))
    obtain ⟨r2, e2, hl2, hin, hout⟩ := ih r1 hpw.2
      (fun q hq => by rw [hl1]; exact hb q (List.mem_cons_of_mem _ hq))
    refine ⟨r2, ?_, by omega, ?_, ?_⟩
    · rw [List.foldlM_cons]
      simp only [e1, Option.bind_eq_bind, Option.some_bind]
      exact e2
    · intro q hq i hi1 hi2
      rw [List.mem_cons] at hq
      rcases hq with rfl | hq
      · rw [hout i, hr1 i, if_pos ⟨hi1, hi2⟩]
        intro q2 hq2 hcon
        have := hpw.1 q2 hq2
        omega
      · exact hin q hq i hi1 hi2
    · intro i hi
      rw [hout i (fun q hq => hi q (List.mem_cons_of_mem _ hq)), hr1 i,
        if_neg (hi p (List.mem_cons_self _ _))]

theorem b8zs_scramble_run (data : List Char) :
    ∃ r, b8zs_scramble data = some r ∧ r.length = data.length ∧
      (∀ a L, MaxRun data a L → ∀ i, a ≤ i → i < a + 8 * (L / 8) →
        r[i]? = "000VB0VB".toList[(i - a) % 8]?) ∧
      (∀ i, (∀ a L, MaxRun data a L → ¬(a ≤ i ∧ i < a + 8 * (L / 8))) → r[i]? = data[i]?) := by
  obtain ⟨runs, hruns, hmem, hpw⟩ := find_zero_sequences_spec data
  obtain ⟨r, e, hl, hin, hout⟩ := b8zs_fold_spec runs data hpw
    (fun p hp => ((hmem p.1 p.2).mp hp).bound)
  refine ⟨r, ?_, hl, ?_, ?_⟩
  · rw [b8zs_scramble]
    simp only [hruns, Option.bind_eq_bind, Option.some_bind]
    exact e
  · intro a L hm i h1 h2
    exact hin (a, L) ((hmem a L).mpr hm) i h1 h2
  · intro i hi
    exact hout i (fun p hp => hi p.1 p.2 ((hmem p.1 p.2).mp hp))

theorem hdb3Loop_spec (start length : Nat) :
    ∀ (fuel k : Nat) (r : List Char) (c : Nat), start + length ≤ r.length → k ≤ length / 4 →
      length / 4 - k < fuel →
      ∃ r2, hdb3Loop start length fuel (start + 4 * k) (r, c) = some (r2, c + (length / 4 - k)) ∧
        r2.length = r.length ∧
        ∀ i, r2[i]? = if start + 4 * k ≤ i ∧ i < start + 4 * (length / 4)
          then (hdb3Pattern (c + ((i - start) / 4 - k)))[(i - start) % 4]? else r[i]? := by
  intro fuel
  induction fuel with
  | zero => intro k r c _ _ h; omega
  | succ fuel ih =>
    intro k r c hb hk hf
    by_cases hc : ((start + 4 * k : Nat) : Int) ≤ (start : Int) + (length : Int) - 4
    · have hlen : start + 4 * k + 4 ≤ r.length := by omega
      obtain ⟨r1, e1, hl1, hr1⟩ := replace_spec r (start + 4 * k) 4 (hdb3Pattern c)
        (by unfold hdb3Pattern; split <;> rfl) hlen
      obtain ⟨r2, e2, hl2, hr2⟩ := ih (k + 1) r1 (c + 1) (by omega) (by omega) (by omega)
      refine ⟨r2, ?_, by omega, ?_⟩
      · have e5 : start + 4 * k + 4 = start + 4 * (k + 1) := by ring
        have e6 : c + 1 + (length / 4 - (k + 1)) = c + (length / 4 - k) := by omega
        rw [e6] at e2
        rw [hdb3Loop, if_pos hc, if_pos hlen]
        by_cases hpar : c % 2 = 0
        · rw [hdb3Pattern, if_pos hpar] at e1
          simp only [if_pos hpar, e1, Option.bind_eq_bind, Option.some_bind, e5]
          exact e2
        · rw [hdb3Pattern, if_neg hpar] at e1
          simp only [if_neg hpar, e1, Option.bind_eq_bind, Option.some_bind, e5]
          exact e2
      · intro i
        rw [hr2 i, hr1 i]
        by_cases h1 : start + 4 * (k + 1) ≤ i ∧ i < start + 4 * (length / 4)
        · rw [if_pos h1, if_pos ⟨by omega, h1.2⟩]
          congr 2
          omega
        · rw [if_neg h1]
          by_cases h2 : start + 4 * k ≤ i ∧ i < start + 4 * k + 4
          · rw [if_pos h2, if_pos ⟨h2.1, by omega⟩]
            have e3 : c + ((i - start) / 4 - k) = c := by omega
            have e4 : (i - start) % 4 = i - (start + 4 * k) := by omega
            rw [e3, e4]
          · rw [if_neg h2, if_neg (by omega)]
    · refine ⟨r, ?_, rfl, ?_⟩
      · rw [hdb3Loop, if_neg hc]
        congr 2
        omega
      · intro i
        rw [if_neg (by omega)]

theorem hdb3Step_spec (r : List Char) (c : Nat) (p : Nat × Nat) (hb : p.1 + p.2 ≤ r.length) :
    ∃ r2, hdb3Step (r, c) p = some (r2, c + p.2 / 4) ∧ r2.length = r.length ∧
      ∀ i, r2[i]? = if p.1 ≤ i ∧ i < p.1 + 4 * (p.2 / 4)
        then (hdb3Pattern (c + (i - p.1) / 4))[(i - p.1) % 4]? else r[i]? := by
  by_cases h4 : p.2 ≥ 4
  · obtain ⟨r2, e, hl, hr⟩ := hdb3Loop_spec p.1 p.2 (p.2 + 1) 0 r c hb (by omega) (by omega)
    refine ⟨r2, ?_, hl, ?_⟩
    · rw [hdb3Step, if_pos h4]; simpa using e
    · intro i; rw [hr i]; simp
  · refine ⟨r, ?_, rfl, ?_⟩
    · rw [hdb3Step, if_neg h4]
      congr 2
      omega
    · intro i; rw [if_neg (by omega)]

theorem hdb3_fold_spec :
    ∀ (l : List (Nat × Nat)) (r : List Char) (c : Nat),
      l.Pairwise (fun p q => p.1 < q.1 ∧ p.1 + p.2 ≤ q.1) →
      (∀ p ∈ l, p.1 + p.2 ≤ r.length) →
      ∃ r2 c2, l.foldlM hdb3Step (r, c) = some (r2, c2) ∧ r2.length = r.length ∧
        (∀ pre p post, l = pre ++ p :: post → ∀ i, p.1 ≤ i → i < p.1 + 4 * (p.2 / 4) →
          r2[i]? = (hdb3Pattern (c + (pre.map (fun q => q.2 / 4)).sum + (i - p.1) / 4))[(i - p.1) % 4]?) ∧
        (∀ i, (∀ p ∈ l, ¬(p.1 ≤ i ∧ i < p.1 + 4 * (p.2 / 4))) → r2[i]? = r[i]?) := by
  intro l
  induction l with
  | nil =>
    intro r c _ _
    exact ⟨r, c, rfl, rfl, fun pre p post h => by simp at h, fun _ _ => rfl⟩
  | cons p l ih =>
    intro r c hpw hb
    rw [List.pairwise_cons] at hpw
    obtain ⟨r1, e1, hl1, hr1⟩ := hdb3Step_spec r c p (hb p (List.mem_cons_self _ _))
    obtain ⟨r2, c2, e2, hl2, hin, hout⟩ := ih r1 (c + p.2 / 4) hpw.2
      (fun q hq => by rw [hl1]; exact hb q (List.mem_cons_of_mem _ hq))
    refine ⟨r2, c2, ?_, by omega, ?_, ?_⟩
    · rw [List.foldlM_cons]
      simp only [e1, Option.bind_eq_bind, Option.some_bind]
      exact e2
    · intro pre q post hdec i hi1 hi2
      cases pre with
      | nil =>
        simp at hdec
        obtain ⟨rfl, rfl⟩ := hdec
        rw [hout i, hr1 i, if_pos ⟨hi1, hi2⟩]
        · simp
        · intro q2 hq2 hcon
          have := hpw.1 q2 hq2
          omega
      | cons p0 pre =>
        simp at hdec
        obtain ⟨rfl, rfl⟩ := hdec
        rw [hin pre q post rfl i hi1 hi2]
        simp [Nat.add_assoc]
    · intro i hi
      rw [hout i (fun q hq => hi q (List.mem_cons_of_mem _ hq)), hr1 i,
        if_neg (hi p (List.mem_cons_self _ _))]

theorem hdb3_scramble_run (data : List Char) :
    ∃ runs r, find_zero_sequences data = some runs ∧
      (∀ a L, (a, L) ∈ runs ↔ MaxRun data a L) ∧
      runs.Pairwise (fun p q => p.1 < q.1 ∧ p.1 + p.2 ≤ q.1) ∧
      hdb3_scramble data = some r ∧ r.length = data.length ∧
      (∀ pre p post, runs = pre ++ p :: post → ∀ i, p.1 ≤ i → i < p.1 + 4 * (p.2 / 4) →
        r[i]? = (hdb3Pattern ((pre.map (fun q => q.2 / 4)).sum + (i - p.1) / 4))[(i - p.1) % 4]?) ∧
      (∀ i, (∀ a L, MaxRun data a L → ¬(a ≤ i ∧ i < a + 4 * (L / 4))) → r[i]? = data[i]?) := by
  obtain ⟨runs, hruns, hmem, hpw⟩ := find_zero_sequences_spec data
  obtain ⟨r, c, e, hl, hin, hout⟩ := hdb3_fold_spec runs data 0 hpw
    (fun p hp => ((hmem p.1 p.2).mp hp).bound)
  refine ⟨runs, r, hruns, hmem, hpw, ?_, hl, ?_, ?_⟩
  · rw [hdb3_scramble]
    simp only [hruns, Option.bind_eq_bind, Option.some_bind]
    change ((List.foldlM hdb3Step (data, 0) runs).bind fun st => some st.1) = some r
    rw [e]
    rfl
  · intro pre p post hdec i h1 h2
    have := hin pre p post hdec i h1 h2
    simpa using this
  · intro i hi
    exact hout i (fun p hp => hi p.1 p.2 ((hmem p.1 p.2).mp hp))

theorem foldl_range_inv {σ : Type} (step : σ → Nat → σ) (Inv : Nat → σ → Prop) (st0 : σ)
    (h0 : Inv 0 st0) :
    ∀ n, (∀ i st, i < n → Inv i st → Inv (i + 1) (step st i)) →
      Inv n ((List.range n).foldl step st0) := by
  intro n
  induction n with
  | zero => intro _; simpa using h0
  | succ n ih =>
    intro hstep
    rw [List.range_succ, List.foldl_append]
    simp only [List.foldl_cons, List.foldl_nil]
    exact hstep n _ (by omega) (ih (fun i st hi => hstep i st (by omega)))

theorem append_samples_snd (time signal : List ℚ) (t0 t1 : ℚ) (samples : Nat) (value : ℚ) :
    (append_samples time signal t0 t1 samples value).2 =
      signal ++ List.replicate samples value := by
  unfold append_samples
  have := foldl_range_inv
    (fun (acc : List ℚ × List ℚ) (i : Nat) =>
      (acc.1 ++ [t0 + (i : ℚ) * ((t1 - t0) / (samples : ℚ))], acc.2 ++ [value]))
    (fun n acc => acc.2 = signal ++ List.replicate n value) (time, signal) (by simp) samples
    (fun i st _ h => by
      simp only [h, List.append_assoc]
      rw [← List.replicate_succ']; )
  exact this

theorem blocks_succ (blk : Nat → List ℚ) (n : Nat) :
    blocks blk (n + 1) = blocks blk n ++ blk n := by
  simp [blocks, List.range_succ, List.flatMap_append]

theorem length_blocks (blk : Nat → List ℚ) (s : Nat) (hs : ∀ i, (blk i).length = s) (n : Nat) :
    (blocks blk n).length = n * s := by
  induction n with
  | zero => simp [blocks]
  | succ n ih => rw [blocks_succ, List.length_append, ih, hs]; ring

theorem blocks_split (blk : Nat → List ℚ) (n j : Nat) (hj : j < n) :
    ∃ post, blocks blk n = blocks blk j ++ blk j ++ post := by
  induction n with
  | zero => omega
  | succ n ih =>
    rw [blocks_succ]
    by_cases h : j = n
    · subst h; exact ⟨[], by simp⟩
    · obtain ⟨post, hp⟩ := ih (by omega)
      exact ⟨post ++ blk n, by rw [hp]; simp⟩

theorem accumulate_mid (A B C : List ℚ) (d k : Nat) (hk : k ≤ B.length) :
    accumulate (A ++ B ++ C) (A.length + d) (A.length + k) =
      ((B.take k).drop d).foldl (fun acc x => acc + x) 0 := by
  unfold accumulate
  congr 1
  rw [List.append_assoc, List.take_append, List.take_append_of_le_length hk, ← List.drop_drop,
    List.drop_left]

theorem foldl_add_replicate (n : Nat) (v a : ℚ) :
    (List.replicate n v).foldl (fun acc x => acc + x) a = a + n * v := by
  induction n generalizing a with
  | zero => simp
  | succ n ih => rw [List.replicate_succ, List.foldl_cons, ih]; push_cast; ring

theorem forBlocks_spec {σ : Type} (s size : Nat) (body : σ → Nat → σ) (hs : 1 ≤ s) :
    ∀ (fuel i : Nat) (st : σ), (size - i) / s < fuel →
      forBlocks s size body fuel i st =
        some ((List.range ((size + s - (i + s)) / s)).foldl (fun st j => body st (i + j * s)) st) := by
  intro fuel
  induction fuel with
  | zero => intro i st h; exact absurd h (Nat.not_lt_zero _)
  | succ fuel ih =>
    intro i st h
    by_cases hc : i + s ≤ size
    · have hdiv : (size + s - (i + s)) / s = (size + s - (i + s + s)) / s + 1 := by
        have : size + s - (i + s) = (size + s - (i + s + s)) + s := by omega
        rw [this, Nat.add_div_right _ (by omega)]
      have hfuel : (size - (i + s)) / s < fuel := by
        have : size - i = (size - (i + s)) + s := by omega
        rw [this, Nat.add_div_right _ (by omega)] at h
        omega
      rw [forBlocks, if_pos hc, ih (i + s) (body st i) hfuel, hdiv, List.range_succ_eq_map,
        List.foldl_cons, List.foldl_map]
      simp only [Nat.zero_mul, Nat.add_zero]
      congr 2
      funext st j
      congr 1
      rw [Nat.succ_mul]; omega
    · have : (size + s - (i + s)) / s = 0 := by
        apply Nat.div_eq_of_lt
        omega
      rw [forBlocks, if_neg hc, this]
      simp

theorem foldl_snoc_map (f : Nat → Char) (n : Nat) (init : List Char) :
    (List.range n).foldl (fun out j => out ++ [f j]) init = init ++ (List.range n).map f := by
  induction n with
  | zero => simp
  | succ n ih => rw [List.range_succ, List.foldl_append, ih]; simp

theorem bits_of_index (data : List Char) (h : ∀ c ∈ data, c = '0' ∨ c = '1') :
    (List.range data.length).map (fun j => if data[j]? = some '1' then '1' else '0') = data := by
  apply List.ext_getElem
  · simp
  · intro j h1 h2
    simp only [List.getElem_map, List.getElem_range]
    rw [List.getElem?_eq_getElem h2]
    rcases h data[j] (List.getElem_mem h2) with h0 | h0 <;> simp [h0]

theorem foldl_range_congr {σ : Type} (f g : σ → Nat → σ) (n : Nat)
    (h : ∀ j st, j < n → f st j = g st j) (st : σ) :
    (List.range n).foldl f st = (List.range n).foldl g st := by
  induction n with
  | zero => simp
  | succ n ih =>
    rw [List.range_succ, List.foldl_append, List.foldl_append,
      ih (fun j st hj => h j st (by omega))]
    simp only [List.foldl_cons, List.foldl_nil]
    exact h n _ (by omega)

/-- Sum of a window that lies inside block `j` of a block-structured signal. -/
theorem accumulate_block (blk : Nat → List ℚ) (s n j d k a b : Nat)
    (hs : ∀ i, (blk i).length = s) (hj : j < n) (hk : k ≤ s) (ha : a = j * s + d)
    (hb : b = j * s + k) :
    accumulate (blocks blk n) a b =
      (((blk j).take k).drop d).foldl (fun acc x => acc + x) 0 := by
  obtain ⟨post, hp⟩ := blocks_split blk n j hj
  have hl := length_blocks blk s hs j
  rw [hp, ha, hb, ← hl]
  exact accumulate_mid _ _ _ d k (by rw [hs]; exact hk)

/-- A stateless decoder applied to a block-structured signal emits one character per block. -/
theorem forBlocks_blocks (s n : Nat) (hs : 1 ≤ s) (sig : List ℚ) (hlen : sig.length = n * s)
    (body : List Char → Nat → List Char) (f : Nat → Char)
    (hbody : ∀ j out, j < n → body out (0 + j * s) = out ++ [f j]) :
    forBlocks s sig.length body (sig.length + 1) 0 [] = some ((List.range n).map f) := by
  rw [forBlocks_spec s sig.length body hs (sig.length + 1) 0 []
    (Nat.lt_succ_of_le (Nat.div_le_self _ _))]
  have hn : (sig.length + s - (0 + s)) / s = n := by
    rw [hlen, Nat.zero_add, Nat.add_sub_cancel, Nat.mul_div_cancel _ (by omega)]
  rw [hn, foldl_range_congr _ (fun out j => out ++ [f j]) n (fun j st hj => hbody j st hj),
    foldl_snoc_map]
  simp

theorem nrz_l_signal (g : DigitalSignalGenerator) (data : List Char) :
    (nrz_l g data).2 = blocks (nrzlBlock g data) data.length := by
  unfold nrz_l
  exact foldl_range_inv _ (fun n (acc : List ℚ × List ℚ) => acc.2 =
      blocks (nrzlBlock g data) n) _
    (by simp [blocks]) _
    (fun i st _ h => by
      simp only [append_samples_snd, blocks_succ, h, nrzlBlock])

theorem nrz_l_roundtrip (g : DigitalSignalGenerator) (bits : List Char)
    (hs : 1 ≤ g.sampling_rate) (hb : ∀ c ∈ bits, c = '0' ∨ c = '1') :
    decode_nrz_l g (nrz_l g bits).2 = some bits := by
  have hsig := nrz_l_signal g bits
  have hlenb : ∀ i, (nrzlBlock g bits i).length = g.sampling_rate :=
    fun i => by simp [nrzlBlock]
  have hlen := length_blocks _ _ hlenb bits.length
  rw [← hsig] at hlen
  have hs0 : (g.sampling_rate : ℚ) ≠ 0 := by exact_mod_cast (by omega : g.sampling_rate ≠ 0)
  unfold decode_nrz_l
  rw [forBlocks_blocks g.sampling_rate bits.length hs _ hlen _
    (fun j => if bits[j]? = some '1' then '1' else '0'), bits_of_index bits hb]
  intro j out hj
  simp only
  rw [hsig, accumulate_block _ g.sampling_rate bits.length j 0 g.sampling_rate _ _ hlenb hj
    (le_refl _) (by omega) (by omega)]
  simp only [nrzlBlock, List.drop_zero, List.take_replicate, min_self, foldl_add_replicate,
    zero_add]
  rw [mul_div_cancel_left₀ _ hs0]
  by_cases h1 : bits[j]? = some '1' <;> simp [h1]

theorem toggleLevel_cases (data : List Char) (i : Nat) :
    toggleLevel data i = 1 ∨ toggleLevel data i = -1 := by
  induction i with
  | zero => right; rfl
  | succ i ih =>
    rw [toggleLevel]
    split <;> rcases ih with h | h <;> simp [h]

theorem ami_signal (g : DigitalSignalGenerator) (data : List Char) :
    (ami g data).2 = blocks (amiBlock g data) data.length := by
  unfold ami
  exact (foldl_range_inv _ (fun n (st : LevelState) => st.signal =
      blocks (amiBlock g data) n ∧ st.level = toggleLevel data n) _
    (by simp [blocks, toggleLevel]) _
    (fun i st _ h => by
      simp [append_samples_snd, blocks_succ, h.1, h.2, amiBlock, toggleLevel])).1

theorem ami_roundtrip (g : DigitalSignalGenerator) (bits : List Char)
    (hs : 1 ≤ g.sampling_rate) (hb : ∀ c ∈ bits, c = '0' ∨ c = '1') :
    decode_ami g (ami g bits).2 = some bits := by
  have hsig := ami_signal g bits
  have hlenb : ∀ i, (amiBlock g bits i).length = g.sampling_rate :=
    fun i => by simp [amiBlock]
  have hlen := length_blocks _ _ hlenb bits.length
  rw [← hsig] at hlen
  have hs0 : (g.sampling_rate : ℚ) ≠ 0 := by exact_mod_cast (by omega : g.sampling_rate ≠ 0)
  unfold decode_ami
  rw [forBlocks_blocks g.sampling_rate bits.length hs _ hlen _
    (fun j => if bits[j]? = some '1' then '1' else '0'), bits_of_index bits hb]
  intro j out hj
  simp only
  rw [hsig, accumulate_block _ g.sampling_rate bits.length j 0 g.sampling_rate _ _ hlenb hj
    (le_refl _) (by omega) (by omega)]
  simp only [amiBlock, List.drop_zero, List.take_replicate, min_self, foldl_add_replicate,
    zero_add]
  rw [mul_div_cancel_left₀ _ hs0]
  by_cases h1 : bits[j]? = some '1'
  · simp only [h1, if_true]
    rcases toggleLevel_cases bits (j + 1) with h | h <;> rw [h] <;> norm_num
  · simp only [h1, if_false]
    norm_num

theorem manchester_signal (g : DigitalSignalGenerator) (data : List Char) :
    (manchester g data).2 = blocks (manBlock g data) data.length := by
  unfold manchester
  exact foldl_range_inv _ (fun n (acc : List ℚ × List ℚ) => acc.2 =
      blocks (manBlock g data) n) _
    (by simp [blocks]) _
    (fun i st _ h => by
      by_cases h1 : data[i]? = some '1' <;>
        simp only [h1, if_true, if_false, append_samples_snd, blocks_succ, h, manBlock,
          List.append_assoc])

theorem halves_first (h : Nat) (a b : ℚ) :
    (((List.replicate h a ++ List.replicate h b).take h).drop 0).foldl
      (fun acc x => acc + x) 0 = h * a := by
  rw [List.drop_zero, List.take_append_of_le_length (by simp), List.take_replicate, min_self,
    foldl_add_replicate, zero_add]

theorem halves_second (h : Nat) (a b : ℚ) :
    (((List.replicate h a ++ List.replicate h b).take (h + h)).drop h).foldl
      (fun acc x => acc + x) 0 = h * b := by
  rw [List.take_of_length_le (by simp), List.drop_append_of_le_length (by simp)]
  simp [foldl_add_replicate]

theorem manchester_roundtrip (g : DigitalSignalGenerator) (bits : List Char)
    (hs : 2 ≤ g.sampling_rate) (hev : g.sampling_rate % 2 = 0)
    (hb : ∀ c ∈ bits, c = '0' ∨ c = '1') :
    decode_manchester g (manchester g bits).2 = some bits := by
  have hsig := manchester_signal g bits
  have hlenb : ∀ i, (manBlock g bits i).length = g.sampling_rate :=
    fun i => by simp [manBlock]; omega
  have hlen := length_blocks _ _ hlenb bits.length
  rw [← hsig] at hlen
  have hh : g.sampling_rate - g.sampling_rate / 2 = g.sampling_rate / 2 := by omega
  have hh2 : g.sampling_rate = g.sampling_rate / 2 + g.sampling_rate / 2 := by omega
  have hs0 : ((g.sampling_rate / 2 : Nat) : ℚ) ≠ 0 := by
    exact_mod_cast (by omega : g.sampling_rate / 2 ≠ 0)
  unfold decode_manchester
  rw [forBlocks_blocks g.sampling_rate bits.length (by omega) _ hlen _
    (fun j => if bits[j]? = some '1' then '1' else '0'), bits_of_index bits hb]
  intro j out hj
  simp only
  rw [hsig, accumulate_block _ g.sampling_rate bits.length j 0 (g.sampling_rate / 2) _ _ hlenb hj
    (by omega) (by omega) (by omega),
    accumulate_block _ g.sampling_rate bits.length j (g.sampling_rate / 2)
      (g.sampling_rate / 2 + g.sampling_rate / 2) _ _ hlenb hj (by omega) (by omega) (by omega),
    hh]
  simp only [manBlock, halves_first, halves_second]
  rw [mul_div_cancel_left₀ _ hs0, mul_div_cancel_left₀ _ hs0]
  have hhalf : g.sampling_rate / 2 ≠ 0 := by omega
  by_cases h1 : bits[j]? = some '1' <;> simp [h1, hhalf]

theorem nrz_i_signal (g : DigitalSignalGenerator) (data : List Char) :
    (nrz_i g data).2 = blocks (nrziBlock g data) data.length := by
  unfold nrz_i
  exact (foldl_range_inv _ (fun n (st : LevelState) => st.signal =
      blocks (nrziBlock g data) n ∧ st.level = toggleLevel data n) _
    (by simp [blocks, toggleLevel]) _
    (fun i st _ h => by
      simp [append_samples_snd, blocks_succ, h.1, h.2, nrziBlock, toggleLevel])).1

/-- What `decode_nrz_i` returns on a clean `nrz_i` signal: the first bit is always read as `0`,
every later bit is recovered. -/
theorem nrz_i_decode_encode (g : DigitalSignalGenerator) (bits : List Char)
    (hs : 1 ≤ g.sampling_rate) :
    decode_nrz_i g (nrz_i g bits).2 = some ((List.range bits.length).map
      (fun j => if j = 0 then '0' else if bits[j]? = some '1' then '1' else '0')) := by
  have hsig := nrz_i_signal g bits
  have hlenb : ∀ i, (nrziBlock g bits i).length = g.sampling_rate :=
    fun i => by simp [nrziBlock]
  have hlen := length_blocks _ _ hlenb bits.length
  rw [← hsig] at hlen
  have hs0 : (g.sampling_rate : ℚ) ≠ 0 := by exact_mod_cast (by omega : g.sampling_rate ≠ 0)
  cases hsg : (nrz_i g bits).2 with
  | nil =>
    rw [hsg] at hlen
    have : bits.length = 0 := by
      simp at hlen
      rcases hlen with h | h
      · simp [h]
      · omega
    simp [decode_nrz_i, this]
  | cons first tl =>
    have hn : 0 < bits.length := by
      rcases Nat.eq_zero_or_pos bits.length with h | h
      · rw [hsg, h] at hlen; simp at hlen
      · exact h
    have hfirst : first = toggleLevel bits 1 := by
      obtain ⟨post, hp⟩ := blocks_split (nrziBlock g bits) bits.length 0 hn
      rw [← hsig, hsg] at hp
      obtain ⟨k, hk⟩ : ∃ k, g.sampling_rate = k + 1 := ⟨g.sampling_rate - 1, by omega⟩
      simp [blocks, nrziBlock, hk, List.replicate_succ] at hp
      exact hp.1
    unfold decode_nrz_i
    simp only
    rw [← hsg, forBlocks_spec g.sampling_rate (nrz_i g bits).2.length _ hs
      ((nrz_i g bits).2.length + 1) 0 _ (Nat.lt_succ_of_le (Nat.div_le_self _ _))]
    have hcount : ((nrz_i g bits).2.length + g.sampling_rate - (0 + g.sampling_rate)) /
        g.sampling_rate = bits.length := by
      rw [hlen, Nat.zero_add, Nat.add_sub_cancel, Nat.mul_div_cancel _ (by omega)]
    rw [hcount]
    have hinv := foldl_range_inv
      (fun (st : List Char × ℚ) (j : Nat) =>
        ((st.1 ++ [if |accumulate (nrz_i g bits).2 (0 + j * g.sampling_rate)
            (0 + j * g.sampling_rate + g.sampling_rate) / (g.sampling_rate : ℚ) - st.2| > 1 / 2
            then '1' else '0'],
          accumulate (nrz_i g bits).2 (0 + j * g.sampling_rate)
            (0 + j * g.sampling_rate + g.sampling_rate) / (g.sampling_rate : ℚ)) :
          List Char × ℚ))
      (fun n st => st.1 = (List.range n).map
          (fun j => if j = 0 then '0' else if bits[j]? = some '1' then '1' else '0') ∧
        st.2 = if n = 0 then first else toggleLevel bits n)
      ([], first) (by simp) bits.length
      (fun j st hj h => by
        have havg : accumulate (nrz_i g bits).2 (0 + j * g.sampling_rate)
            (0 + j * g.sampling_rate + g.sampling_rate) / (g.sampling_rate : ℚ) =
            toggleLevel bits (j + 1) := by
          rw [hsig, accumulate_block _ g.sampling_rate bits.length j 0 g.sampling_rate _ _ hlenb
            hj (le_refl _) (by omega) (by omega)]
          simp only [nrziBlock, List.drop_zero, List.take_replicate, min_self,
            foldl_add_replicate, zero_add]
          rw [mul_div_cancel_left₀ _ hs0]
        simp only [havg, h.1, h.2, List.range_succ, List.map_append, List.map_cons, List.map_nil]
        refine ⟨?_, by simp⟩
        congr 2
        by_cases hj0 : j = 0
        · subst hj0
          simp [hfirst]
        · simp only [hj0, if_false]
          rw [toggleLevel]
          by_cases h1 : bits[j]? = some '1'
          · simp only [h1, if_true]
            rcases toggleLevel_cases bits j with h | h <;> rw [h] <;> norm_num
          · simp only [h1, if_false]
            norm_num)
    rw [Option.map_some', hinv.1]

theorem nrz_i_leading_one (g : DigitalSignalGenerator) (rest : List Char)
    (hs : 1 ≤ g.sampling_rate) :
    decode_nrz_i g (nrz_i g ('1' :: rest)).2 ≠ some ('1' :: rest) := by
  rw [nrz_i_decode_encode g _ hs]
  simp [List.range_succ_eq_map]

theorem dmLevel_cases (data : List Char) (i : Nat) :
    dmLevel data i = 1 ∨ dmLevel data i = -1 := by
  induction i with
  | zero => left; rfl
  | succ i ih =>
    rw [dmLevel]
    split <;> rcases ih with h | h <;> simp [h]

theorem differential_manchester_signal (g : DigitalSignalGenerator) (data : List Char) :
    (differential_manchester g data).2 = blocks (dmBlock g data) data.length := by
  unfold differential_manchester
  exact (foldl_range_inv _ (fun n (st : LevelState) => st.signal =
      blocks (dmBlock g data) n ∧ st.level = dmLevel data n) _
    (by simp [blocks, dmLevel]) _
    (fun i st _ h => by
      simp [append_samples_snd, blocks_succ, h.1, h.2, dmBlock, dmLevel])).1

/-- On a clean `differential_manchester` signal the decoder reads every symbol as `1`. -/
theorem differential_manchester_decode_encode (g : DigitalSignalGenerator) (bits : List Char)
    (hs : 2 ≤ g.sampling_rate) (hev : g.sampling_rate % 2 = 0) :
    decode_differential_manchester g (differential_manchester g bits).2 =
      some (List.replicate bits.length '1') := by
  have hsig := differential_manchester_signal g bits
  have hlenb : ∀ i, (dmBlock g bits i).length = g.sampling_rate :=
    fun i => by simp [dmBlock]; omega
  have hlen := length_blocks _ _ hlenb bits.length
  rw [← hsig] at hlen
  have hh : g.sampling_rate - g.sampling_rate / 2 = g.sampling_rate / 2 := by omega
  have hs0 : ((g.sampling_rate / 2 : Nat) : ℚ) ≠ 0 := by
    exact_mod_cast (by omega : g.sampling_rate / 2 ≠ 0)
  unfold decode_differential_manchester
  rw [forBlocks_blocks g.sampling_rate bits.length (by omega) _ hlen _ (fun _ => '1')]
  · congr 1
    apply List.ext_getElem <;> simp
  intro j out hj
  simp only
  rw [hsig, accumulate_block _ g.sampling_rate bits.length j 0 (g.sampling_rate / 2) _ _ hlenb hj
    (by omega) (by omega) (by omega),
    accumulate_block _ g.sampling_rate bits.length j (g.sampling_rate / 2)
      (g.sampling_rate / 2 + g.sampling_rate / 2) _ _ hlenb hj (by omega) (by omega) (by omega),
    hh]
  simp only [dmBlock, halves_first, halves_second]
  rw [mul_div_cancel_left₀ _ hs0, mul_div_cancel_left₀ _ hs0]
  have hhalf : g.sampling_rate / 2 ≠ 0 := by omega
  rcases dmLevel_cases bits (j + 1) with h | h <;> rw [h] <;> norm_num [hhalf]

/-! ## The claims -/

/-- Dropping the part before an infix and taking its length gives the infix back. -/
theorem substr_of_append (l1 q l2 : List Char) :
    ((l1 ++ q ++ l2).drop l1.length).take q.length = q := by
  simp

/-- A window of `r` equals `pat` when it agrees with `pat` position by position. -/
theorem block_eq_of_getElem? (r pat : List Char) (b n : Nat) (hp : pat.length = n)
    (h : ∀ d, d < n → r[b + d]? = pat[d]?) : (r.drop b).take n = pat := by
  apply List.ext_getElem?
  intro d
  by_cases hd : d < n
  · rw [List.getElem?_take_of_lt hd, List.getElem?_drop, h d hd]
  · rw [List.getElem?_eq_none (by simp; omega), List.getElem?_eq_none (by omega)]

/-- C1. For every string `s` containing neither `^` nor `$`, `longest_palindrome_manacher s`
returns `(p, start, len)` with `p = s[start .. start+len)`, `len = |p|`, `p` a palindrome, and
no palindromic substring of `s` longer than `len`; for the empty string the result is
`("", 0, 0)`. -/
theorem longest_palindrome_manacher_correct (s : List Char) (h1 : '^' ∉ s) (h2 : '$' ∉ s) :
    ∃ (p : List Char) (start len : Int),
      longest_palindrome_manacher s = some (p, start, len) ∧
      0 ≤ start ∧ 0 ≤ len ∧ start + len ≤ s.length ∧
      p = (s.drop start.toNat).take len.toNat ∧ (p.length : Int) = len ∧ IsPal p ∧
      (∀ q l1 l2 : List Char, s = l1 ++ q ++ l2 → IsPal q → (q.length : Int) ≤ len) ∧
      (s = [] → p = [] ∧ start = 0 ∧ len = 0) := by
  obtain ⟨a, L, hrun, hb, hpal, hemp, hmax⟩ := manacher_run s h1 h2
  refine ⟨(s.drop a).take L, a, L, hrun, by omega, by omega, by omega, by simp,
    by rw [length_substr s a L hb], hpal, ?_, ?_⟩
  · intro q l1 l2 hs hq
    have hlen : l1.length + q.length ≤ s.length := by rw [hs]; simp
    have hsub : (s.drop l1.length).take q.length = q := by rw [hs]; exact substr_of_append _ _ _
    have := (hmax l1.length q.length hlen (by rw [hsub]; exact hq)).1
    omega
  · intro hs
    obtain ⟨ha, hL⟩ := hemp hs
    subst ha hL
    simp

/-- Instance of C1 at the bitstream `0110`. -/
theorem longest_palindrome_manacher_correct_witness :
    '^' ∉ "0110".toList ∧ '$' ∉ "0110".toList ∧
    ∃ (p : List Char) (start len : Int),
      longest_palindrome_manacher "0110".toList = some (p, start, len) ∧
      0 ≤ start ∧ 0 ≤ len ∧ start + len ≤ "0110".toList.length ∧
      p = ("0110".toList.drop start.toNat).take len.toNat ∧ (p.length : Int) = len ∧ IsPal p ∧
      (∀ q l1 l2 : List Char, "0110".toList = l1 ++ q ++ l2 → IsPal q →
        (q.length : Int) ≤ len) ∧
      ("0110".toList = [] → p = [] ∧ start = 0 ∧ len = 0) :=
  ⟨by decide, by decide, longest_palindrome_manacher_correct "0110".toList (by decide) (by decide)⟩

/-- C2. For every non-empty string `s` without `^` or `$`, `longest_palindrome_manacher s`
returns `(p, start, len)` where `p = s[start .. start+len)` is a palindrome of the maximal
length `len`, and `start` is the smallest start index among the palindromic substrings of `s`
of that length; `"babad"` gives `("bab", 0, 3)` and `"cbbd"` gives `("bb", 1, 2)`. -/
theorem longest_palindrome_manacher_leftmost (s : List Char) (hne : s ≠ []) (h1 : '^' ∉ s)
    (h2 : '$' ∉ s) :
    (∃ (p : List Char) (start len : Int),
      longest_palindrome_manacher s = some (p, start, len) ∧ 0 < len ∧
      0 ≤ start ∧ start + len ≤ s.length ∧
      p = (s.drop start.toNat).take len.toNat ∧ (p.length : Int) = len ∧ IsPal p ∧
      (∀ q l1 l2 : List Char, s = l1 ++ q ++ l2 → IsPal q → (q.length : Int) ≤ len) ∧
      (∀ q l1 l2 : List Char, s = l1 ++ q ++ l2 → IsPal q → (q.length : Int) = len →
        start ≤ l1.length)) ∧
    longest_palindrome_manacher "babad".toList = some ("bab".toList, 0, 3) ∧
    longest_palindrome_manacher "cbbd".toList = some ("bb".toList, 1, 2) := by
  refine ⟨?_, by decide, by decide⟩
  obtain ⟨a, L, hrun, hb, hpal, hemp, hmax⟩ := manacher_run s h1 h2
  have hkey : ∀ q l1 l2 : List Char, s = l1 ++ q ++ l2 → IsPal q →
      q.length ≤ L ∧ (q.length = L → a ≤ l1.length) := by
    intro q l1 l2 hs hq
    have hlen : l1.length + q.length ≤ s.length := by rw [hs]; simp
    have hsub : (s.drop l1.length).take q.length = q := by rw [hs]; exact substr_of_append _ _ _
    exact hmax l1.length q.length hlen (by rw [hsub]; exact hq)
  refine ⟨(s.drop a).take L, a, L, hrun, ?_, by omega, by omega, by simp,
    by rw [length_substr s a L hb], hpal, ?_, ?_⟩
  · cases s with
    | nil => exact absurd rfl hne
    | cons c rest =>
      have := (hkey [c] [] rest (by simp) (by simp [IsPal])).1
      simp at this
      omega
  · intro q l1 l2 hs hq
    have := (hkey q l1 l2 hs hq).1
    omega
  · intro q l1 l2 hs hq hlen
    have := (hkey q l1 l2 hs hq).2 (by omega)
    omega

/-- Instance of C2 at the string `abab`, whose two longest palindromes `aba` and `bab` tie. -/
theorem longest_palindrome_manacher_leftmost_witness :
    "abab".toList ≠ [] ∧ '^' ∉ "abab".toList ∧ '$' ∉ "abab".toList ∧
    ((∃ (p : List Char) (start len : Int),
      longest_palindrome_manacher "abab".toList = some (p, start, len) ∧ 0 < len ∧
      0 ≤ start ∧ start + len ≤ "abab".toList.length ∧
      p = ("abab".toList.drop start.toNat).take len.toNat ∧ (p.length : Int) = len ∧ IsPal p ∧
      (∀ q l1 l2 : List Char, "abab".toList = l1 ++ q ++ l2 → IsPal q →
        (q.length : Int) ≤ len) ∧
      (∀ q l1 l2 : List Char, "abab".toList = l1 ++ q ++ l2 → IsPal q →
        (q.length : Int) = len → start ≤ l1.length)) ∧
    longest_palindrome_manacher "babad".toList = some ("bab".toList, 0, 3) ∧
    longest_palindrome_manacher "cbbd".toList = some ("bb".toList, 1, 2)) :=
  ⟨by decide, by decide, by decide,
    longest_palindrome_manacher_leftmost "abab".toList (by decide) (by decide) (by decide)⟩

/-- C3. For every string, `find_zero_sequences` returns exactly the maximal runs of `0`: a pair
`(start, length)` is listed if and only if `length >= 1`, the characters `start .. start+length`
are all `0`, and neither the character before nor the character after the run is `0`; the pairs
come in strictly ascending start order and do not overlap. -/
theorem find_zero_sequences_maximal_runs (data : List Char) :
    ∃ runs, find_zero_sequences data = some runs ∧
      (∀ a L, (a, L) ∈ runs ↔ MaxRun data a L) ∧
      runs.Pairwise (fun p q => p.1 < q.1 ∧ p.1 + p.2 ≤ q.1) :=
  find_zero_sequences_spec data

/-- C4. The result of `b8zs_scramble` has the length of `data`; in every maximal zero run of
length `L >= 8` starting at `a`, each of the `L / 8` consecutive 8-character blocks at `a`,
`a + 8`, ... reads `000VB0VB`; every position outside these blocks is unchanged.  A run of
exactly 8 zeros becomes `000VB0VB`, and a string whose zero runs all have length at most 7 is
returned unchanged. -/
theorem b8zs_scramble_blocks (data : List Char) :
    ∃ r, b8zs_scramble data = some r ∧ r.length = data.length ∧
      (∀ a L, MaxRun data a L → 8 ≤ L → ∀ k, k < L / 8 →
        (r.drop (a + 8 * k)).take 8 = "000VB0VB".toList) ∧
      (∀ i, (∀ a L, MaxRun data a L → 8 ≤ L → ¬(a ≤ i ∧ i < a + 8 * (L / 8))) →
        r[i]? = data[i]?) ∧
      (∀ a, MaxRun data a 8 → (r.drop a).take 8 = "000VB0VB".toList) ∧
      ((∀ a L, MaxRun data a L → L ≤ 7) → r = data) := by
  obtain ⟨r, hr, hl, hin, hout⟩ := b8zs_scramble_run data
  have hblock : ∀ a L, MaxRun data a L → 8 ≤ L → ∀ k, k < L / 8 →
      (r.drop (a + 8 * k)).take 8 = "000VB0VB".toList := by
    intro a L hm h8 k hk
    apply block_eq_of_getElem? r "000VB0VB".toList (a + 8 * k) 8 rfl
    intro d hd
    rw [hin a L hm (a + 8 * k + d) (by omega) (by omega)]
    congr 1
    omega
  refine ⟨r, hr, hl, hblock, ?_, ?_, ?_⟩
  · intro i hi
    apply hout i
    intro a L hm hcon
    exact hi a L hm (by omega) hcon
  · intro a hm
    have := hblock a 8 hm (le_refl _) 0 (by decide)
    simpa using this
  · intro hshort
    apply List.ext_getElem?
    intro i
    apply hout i
    intro a L hm hcon
    have := hshort a L hm
    omega

/-- C5. In the result of `hdb3_scramble`, with `runs` the ascending list of maximal zero runs,
every run of length `L >= 4` starting at `a` has each of its `L / 4` consecutive 4-character
blocks replaced; the block number (counted from 0 over the whole string, left to right, without
reset between runs) decides the pattern: `000V` for an even number, `B00V` for an odd one; every
other position is unchanged.  Two separate runs of four zeros give `000V` and then `B00V`. -/
theorem hdb3_scramble_blocks (data : List Char) :
    (∃ runs r, find_zero_sequences data = some runs ∧
      (∀ a L, (a, L) ∈ runs ↔ MaxRun data a L) ∧
      runs.Pairwise (fun p q => p.1 < q.1 ∧ p.1 + p.2 ≤ q.1) ∧
      hdb3_scramble data = some r ∧ r.length = data.length ∧
      (∀ pre p post, runs = pre ++ p :: post → 4 ≤ p.2 → ∀ k, k < p.2 / 4 →
        (r.drop (p.1 + 4 * k)).take 4 =
          hdb3Pattern ((pre.map (fun q => q.2 / 4)).sum + k)) ∧
      (∀ i, (∀ a L, MaxRun data a L → 4 ≤ L → ¬(a ≤ i ∧ i < a + 4 * (L / 4))) →
        r[i]? = data[i]?)) ∧
    hdb3_scramble "0000100001".toList = some "000V1B00V1".toList := by
  refine ⟨?_, by decide⟩
  obtain ⟨runs, r, hruns, hmem, hpw, hr, hl, hin, hout⟩ := hdb3_scramble_run data
  refine ⟨runs, r, hruns, hmem, hpw, hr, hl, ?_, ?_⟩
  · intro pre p post hdec h4 k hk
    apply block_eq_of_getElem? r _ (p.1 + 4 * k) 4 (by unfold hdb3Pattern; split <;> rfl)
    intro d hd
    rw [hin pre p post hdec (p.1 + 4 * k + d) (by omega) (by omega)]
    have e1 : (p.1 + 4 * k + d - p.1) / 4 = k := by omega
    have e2 : (p.1 + 4 * k + d - p.1) % 4 = d := by omega
    rw [e1, e2]
  · intro i hi
    apply hout i
    intro a L hm hcon
    exact hi a L hm (by omega) hcon

/-- C6. NRZ-L clean round trip: for every bitstream over `0`/`1` and every
`sampling_rate >= 1` (any `bit_duration`), decoding the voltage sequence produced by `nrz_l`
with `decode_nrz_l` gives back the bitstream. -/
theorem nrz_l_clean_roundtrip (g : DigitalSignalGenerator) (bits : List Char)
    (hs : 1 ≤ g.sampling_rate) (hb : ∀ c ∈ bits, c = '0' ∨ c = '1') :
    decode_nrz_l g (nrz_l g bits).2 = some bits :=
  nrz_l_roundtrip g bits hs hb

/-- Instance of C6 at `sampling_rate = 10` and the bitstream `0101`. -/
theorem nrz_l_clean_roundtrip_witness :
    decode_nrz_l ⟨1, 10⟩ (nrz_l ⟨1, 10⟩ "0101".toList).2 = some "0101".toList :=
  nrz_l_clean_roundtrip ⟨1, 10⟩ "0101".toList (by decide) (by decide)

/-- C7. AMI clean round trip: for every bitstream over `0`/`1` and every `sampling_rate >= 1`
(any `bit_duration`), decoding the voltage sequence produced by `ami` with `decode_ami` gives
back the bitstream. -/
theorem ami_clean_roundtrip (g : DigitalSignalGenerator) (bits : List Char)
    (hs : 1 ≤ g.sampling_rate) (hb : ∀ c ∈ bits, c = '0' ∨ c = '1') :
    decode_ami g (ami g bits).2 = some bits :=
  ami_roundtrip g bits hs hb

/-- Instance of C7 at `sampling_rate = 10` and the bitstream `1111`. -/
theorem ami_clean_roundtrip_witness :
    decode_ami ⟨1, 10⟩ (ami ⟨1, 10⟩ "1111".toList).2 = some "1111".toList :=
  ami_clean_roundtrip ⟨1, 10⟩ "1111".toList (by decide) (by decide)

/-- C8 (failing input). With `sampling_rate = 10` the bitstream `1` is encoded by `nrz_i` and
decoded by `decode_nrz_i` as `0`: the decoder seeds `last_level` with the first sample, so the
inversion the encoder makes for a leading `1` is never seen. -/
theorem nrz_i_roundtrip_leading_one :
    decode_nrz_i ⟨1, 10⟩ (nrz_i ⟨1, 10⟩ "1".toList).2 = some "0".toList := by
  rw [nrz_i_decode_encode _ _ (by decide)]
  decide

/-- C9. Manchester clean round trip: for every bitstream over `0`/`1` and every even
`sampling_rate >= 2`, decoding the voltage sequence produced by `manchester` with
`decode_manchester` gives back the bitstream. -/
theorem manchester_clean_roundtrip (g : DigitalSignalGenerator) (bits : List Char)
    (hs : 2 ≤ g.sampling_rate) (hev : g.sampling_rate % 2 = 0)
    (hb : ∀ c ∈ bits, c = '0' ∨ c = '1') :
    decode_manchester g (manchester g bits).2 = some bits :=
  manchester_roundtrip g bits hs hev hb

/-- Instance of C9 at `sampling_rate = 10` and the bitstream `0101`. -/
theorem manchester_clean_roundtrip_witness :
    decode_manchester ⟨1, 10⟩ (manchester ⟨1, 10⟩ "0101".toList).2 = some "0101".toList :=
  manchester_clean_roundtrip ⟨1, 10⟩ "0101".toList (by decide) (by decide) (by decide)

/-- C10 (failing input). With `sampling_rate = 10` the bitstream `0` is encoded by
`differential_manchester` and decoded by `decode_differential_manchester` as `1`: the decoder
compares the two halves of a symbol, which the encoder always makes opposite. -/
theorem differential_manchester_roundtrip_zero :
    decode_differential_manchester ⟨1, 10⟩ (differential_manchester ⟨1, 10⟩ "0".toList).2 =
      some "1".toList := by
  rw [differential_manchester_decode_encode _ _ (by decide) (by decide)]
  decide

/-! ## Lemmas for the converters, the encoders' shape and the decoders' blocks -/

theorem append_samples_fst_length (time signal : List ℚ) (t0 t1 : ℚ) (samples : Nat)
    (value : ℚ) :
    (append_samples time signal t0 t1 samples value).1.length = time.length + samples := by
  unfold append_samples
  exact foldl_range_inv
    (fun (acc : List ℚ × List ℚ) (i : Nat) =>
      (acc.1 ++ [t0 + (i : ℚ) * ((t1 - t0) / (samples : ℚ))], acc.2 ++ [value]))
    (fun n acc => acc.1.length = time.length + n) (time, signal) (by simp) samples
    (fun i st _ h => by simp [h]; omega)

theorem append_samples_snd_length (time signal : List ℚ) (t0 t1 : ℚ) (samples : Nat)
    (value : ℚ) :
    (append_samples time signal t0 t1 samples value).2.length = signal.length + samples := by
  rw [append_samples_snd]; simp

theorem nrz_l_shape (g : DigitalSignalGenerator) (data : List Char) :
    (nrz_l g data).1.length = data.length * g.sampling_rate ∧
    (nrz_l g data).2.length = data.length * g.sampling_rate := by
  unfold nrz_l
  exact foldl_range_inv _ (fun n (acc : List ℚ × List ℚ) =>
      acc.1.length = n * g.sampling_rate ∧ acc.2.length = n * g.sampling_rate) _
    (by simp) _
    (fun i st _ h => by
      simp [append_samples_fst_length, append_samples_snd_length, h.1, h.2, Nat.succ_mul])

theorem nrz_i_shape (g : DigitalSignalGenerator) (data : List Char) :
    (nrz_i g data).1.length = data.length * g.sampling_rate ∧
    (nrz_i g data).2.length = data.length * g.sampling_rate := by
  unfold nrz_i
  exact foldl_range_inv _ (fun n (st : LevelState) =>
      st.time.length = n * g.sampling_rate ∧ st.signal.length = n * g.sampling_rate) _
    (by simp) _
    (fun i st _ h => by
      simp [append_samples_fst_length, append_samples_snd_length, h.1, h.2, Nat.succ_mul])

theorem ami_shape (g : DigitalSignalGenerator) (data : List Char) :
    (ami g data).1.length = data.length * g.sampling_rate ∧
    (ami g data).2.length = data.length * g.sampling_rate := by
  unfold ami
  exact foldl_range_inv _ (fun n (st : LevelState) =>
      st.time.length = n * g.sampling_rate ∧ st.signal.length = n * g.sampling_rate) _
    (by simp) _
    (fun i st _ h => by
      simp [append_samples_fst_length, append_samples_snd_length, h.1, h.2, Nat.succ_mul])

theorem manchester_shape (g : DigitalSignalGenerator) (data : List Char) :
    (manchester g data).1.length = data.length * 2 * (g.sampling_rate / 2) ∧
    (manchester g data).2.length = data.length * 2 * (g.sampling_rate / 2) := by
  unfold manchester
  exact foldl_range_inv _ (fun n (acc : List ℚ × List ℚ) =>
      acc.1.length = n * 2 * (g.sampling_rate / 2) ∧
      acc.2.length = n * 2 * (g.sampling_rate / 2)) _
    (by simp) _
    (fun i st _ h => by
      by_cases h1 : data[i]? = some '1' <;>
        simp only [h1, if_true, if_false, append_samples_fst_length,
          append_samples_snd_length, h.1, h.2] <;>
        constructor <;> ring)

theorem differential_manchester_shape (g : DigitalSignalGenerator) (data : List Char) :
    (differential_manchester g data).1.length = data.length * 2 * (g.sampling_rate / 2) ∧
    (differential_manchester g data).2.length = data.length * 2 * (g.sampling_rate / 2) := by
  unfold differential_manchester
  exact foldl_range_inv _ (fun n (st : LevelState) =>
      st.time.length = n * 2 * (g.sampling_rate / 2) ∧
      st.signal.length = n * 2 * (g.sampling_rate / 2)) _
    (by simp) _
    (fun i st _ h => by
      simp only [append_samples_fst_length, append_samples_snd_length, h.1, h.2]
      constructor <;> ring)

theorem zeroUnlessOne_one (data : List Char) (i : Nat) :
    ((zeroUnlessOne data)[i]? = some '1') = (data[i]? = some '1') := by
  apply propext
  unfold zeroUnlessOne
  rw [List.getElem?_map]
  cases data[i]? with
  | none => simp
  | some c => by_cases h : c = '1' <;> simp [h]

theorem oneUnlessZero_zero (data : List Char) (i : Nat) :
    ((oneUnlessZero data)[i]? = some '0') = (data[i]? = some '0') := by
  apply propext
  unfold oneUnlessZero
  rw [List.getElem?_map]
  cases data[i]? with
  | none => simp
  | some c => by_cases h : c = '0' <;> simp [h]

theorem length_zeroUnlessOne (data : List Char) :
    (zeroUnlessOne data).length = data.length := by
  simp [zeroUnlessOne]

theorem length_oneUnlessZero (data : List Char) :
    (oneUnlessZero data).length = data.length := by
  simp [oneUnlessZero]

theorem nrz_l_lenient (g : DigitalSignalGenerator) (data : List Char) :
    nrz_l g data = nrz_l g (zeroUnlessOne data) := by
  simp only [nrz_l, length_zeroUnlessOne, zeroUnlessOne_one]

theorem nrz_i_lenient (g : DigitalSignalGenerator) (data : List Char) :
    nrz_i g data = nrz_i g (zeroUnlessOne data) := by
  simp only [nrz_i, length_zeroUnlessOne, zeroUnlessOne_one]

theorem manchester_lenient (g : DigitalSignalGenerator) (data : List Char) :
    manchester g data = manchester g (zeroUnlessOne data) := by
  simp only [manchester, length_zeroUnlessOne, zeroUnlessOne_one]

theorem ami_lenient (g : DigitalSignalGenerator) (data : List Char) :
    ami g data = ami g (zeroUnlessOne data) := by
  simp only [ami, length_zeroUnlessOne, zeroUnlessOne_one]

theorem differential_manchester_lenient (g : DigitalSignalGenerator) (data : List Char) :
    differential_manchester g data = differential_manchester g (oneUnlessZero data) := by
  simp only [differential_manchester, length_oneUnlessZero, oneUnlessZero_zero]

theorem blocks_getElem? (blk : Nat → List ℚ) (s n j d : Nat) (hs : ∀ i, (blk i).length = s)
    (hj : j < n) (hd : d < s) : (blocks blk n)[j * s + d]? = (blk j)[d]? := by
  obtain ⟨post, hp⟩ := blocks_split blk n j hj
  have hl := length_blocks blk s hs j
  rw [hp, List.append_assoc, List.getElem?_append_right (by omega),
    List.getElem?_append_left (by rw [hs]; omega)]
  congr 1
  omega

theorem forBlocks_map (s size : Nat) (hs : 1 ≤ s) (f : Nat → Char) :
    forBlocks s size (fun out i => out ++ [f i]) (size + 1) 0 [] =
      some ((List.range (size / s)).map (fun j => f (0 + j * s))) := by
  rw [forBlocks_spec s size _ hs (size + 1) 0 [] (Nat.lt_succ_of_le (Nat.div_le_self _ _)),
    Nat.zero_add, Nat.add_sub_cancel, foldl_snoc_map]
  simp

theorem accumulate_take (signal : List ℚ) (m a b : Nat) (hb : b ≤ m) :
    accumulate (signal.take m) a b = accumulate signal a b := by
  unfold accumulate
  rw [List.take_take, min_eq_left hb]

theorem full_blocks (s len : Nat) (hs : 1 ≤ s) (signal : List ℚ) (hl : signal.length = len) :
    (signal.take (s * (len / s))).length = s * (len / s) ∧
    (signal.take (s * (len / s))).length / s = len / s := by
  have h1 : s * (len / s) ≤ len := Nat.mul_div_le len s
  have h2 : (signal.take (s * (len / s))).length = s * (len / s) := by
    rw [List.length_take, hl]; omega
  exact ⟨h2, by rw [h2, Nat.mul_div_cancel_left _ (by omega)]⟩

theorem block_end_le (s len j : Nat) (hj : j < len / s) : 0 + j * s + s ≤ s * (len / s) := by
  have : (j + 1) * s ≤ (len / s) * s := Nat.mul_le_mul_right s hj
  rw [Nat.mul_comm (len / s) s] at this
  rw [Nat.zero_add]
  calc j * s + s = (j + 1) * s := by ring
    _ ≤ s * (len / s) := this

/-- A stateless decoder whose bit at offset `i` reads the signal only through windows ending at
or before `i + sampling_rate` has the block structure. -/
theorem blockDecoder_of_bit (dec : DigitalSignalGenerator → List ℚ → Option (List Char))
    (bit : DigitalSignalGenerator → List ℚ → Nat → Char) (g : DigitalSignalGenerator)
    (signal : List ℚ) (hs : 1 ≤ g.sampling_rate)
    (hdec : ∀ sig, dec g sig = forBlocks g.sampling_rate sig.length
      (fun out i => out ++ [bit g sig i]) (sig.length + 1) 0 [])
    (hbit : ∀ sig i, bit g sig i = '0' ∨ bit g sig i = '1')
    (hloc : ∀ sig m i, i + g.sampling_rate ≤ m → bit g (sig.take m) i = bit g sig i) :
    BlockDecoder dec g signal := by
  obtain ⟨hfl, hfc⟩ := full_blocks g.sampling_rate signal.length hs signal rfl
  refine ⟨_, by rw [hdec, forBlocks_map _ _ hs], by simp, ?_, ?_⟩
  · intro c hc
    rw [List.mem_map] at hc
    obtain ⟨j, _, rfl⟩ := hc
    exact hbit _ _
  · rw [hdec, forBlocks_map _ _ hs, hfc]
    congr 1
    apply List.map_congr_left
    intro j hj
    rw [List.mem_range] at hj
    exact hloc signal _ _ (block_end_le _ _ j hj)

theorem decode_nrz_l_blocks (g : DigitalSignalGenerator) (signal : List ℚ)
    (hs : 1 ≤ g.sampling_rate) : BlockDecoder decode_nrz_l g signal := by
  apply blockDecoder_of_bit decode_nrz_l
    (fun g sig i => if accumulate sig i (i + g.sampling_rate) / (g.sampling_rate : ℚ) > 0
      then '1' else '0') g signal hs
  · intro sig; rfl
  · intro sig i; split <;> simp
  · intro sig m i hi
    simp only [accumulate_take sig m _ _ hi]

theorem decode_ami_blocks (g : DigitalSignalGenerator) (signal : List ℚ)
    (hs : 1 ≤ g.sampling_rate) : BlockDecoder decode_ami g signal := by
  apply blockDecoder_of_bit decode_ami
    (fun g sig i => if |accumulate sig i (i + g.sampling_rate) / (g.sampling_rate : ℚ)| > 1 / 10
      then '1' else '0') g signal hs
  · intro sig; rfl
  · intro sig i; split <;> simp
  · intro sig m i hi
    simp only [accumulate_take sig m _ _ hi]

theorem decode_manchester_blocks (g : DigitalSignalGenerator) (signal : List ℚ)
    (hs : 1 ≤ g.sampling_rate) : BlockDecoder decode_manchester g signal := by
  apply blockDecoder_of_bit decode_manchester
    (fun g sig i => if g.sampling_rate / 2 ≠ 0 ∧
        accumulate sig i (i + g.sampling_rate / 2) / ((g.sampling_rate / 2 : Nat) : ℚ) <
        accumulate sig (i + g.sampling_rate / 2) (i + g.sampling_rate) /
          ((g.sampling_rate - g.sampling_rate / 2 : Nat) : ℚ)
      then '1' else '0') g signal hs
  · intro sig; rfl
  · intro sig i; split <;> simp
  · intro sig m i hi
    simp only [accumulate_take sig m _ _ hi,
      accumulate_take sig m i (i + g.sampling_rate / 2) (by omega)]

theorem decode_differential_manchester_blocks (g : DigitalSignalGenerator) (signal : List ℚ)
    (hs : 1 ≤ g.sampling_rate) : BlockDecoder decode_differential_manchester g signal := by
  apply blockDecoder_of_bit decode_differential_manchester
    (fun g sig i => if g.sampling_rate / 2 ≠ 0 ∧
        |accumulate sig i (i + g.sampling_rate / 2) / ((g.sampling_rate / 2 : Nat) : ℚ) -
        accumulate sig (i + g.sampling_rate / 2) (i + g.sampling_rate) /
          ((g.sampling_rate - g.sampling_rate / 2 : Nat) : ℚ)| > 1 / 2
      then '1' else '0') g signal hs
  · intro sig; rfl
  · intro sig i; split <;> simp
  · intro sig m i hi
    simp only [accumulate_take sig m _ _ hi,
      accumulate_take sig m i (i + g.sampling_rate / 2) (by omega)]

theorem decode_nrz_i_cons (g : DigitalSignalGenerator) (first : ℚ) (rest : List ℚ)
    (hs : 1 ≤ g.sampling_rate) :
    decode_nrz_i g (first :: rest) =
      some (nrziOut g (first :: rest) first ((first :: rest).length / g.sampling_rate)) := by
  unfold decode_nrz_i
  simp only
  rw [forBlocks_spec g.sampling_rate (first :: rest).length _ hs
    ((first :: rest).length + 1) 0 _ (Nat.lt_succ_of_le (Nat.div_le_self _ _)),
    Nat.zero_add, Nat.add_sub_cancel]
  rfl

theorem nrziOut_shape (g : DigitalSignalGenerator) (sig : List ℚ) (first : ℚ) (q : Nat) :
    (nrziOut g sig first q).length = q ∧ ∀ c ∈ nrziOut g sig first q, c = '0' ∨ c = '1' := by
  unfold nrziOut
  exact foldl_range_inv _ (fun n (st : List Char × ℚ) =>
      st.1.length = n ∧ ∀ c ∈ st.1, c = '0' ∨ c = '1') _ (by simp) q
    (fun j st _ h => by
      refine ⟨by simp [h.1], ?_⟩
      intro c hc
      rw [List.mem_append] at hc
      rcases hc with hc | hc
      · exact h.2 c hc
      · rw [List.mem_singleton] at hc
        rw [hc]
        split <;> simp)

theorem nrziOut_take (g : DigitalSignalGenerator) (sig : List ℚ) (first : ℚ) (q m : Nat)
    (hm : g.sampling_rate * q ≤ m) :
    nrziOut g (sig.take m) first q = nrziOut g sig first q := by
  unfold nrziOut
  congr 1
  apply foldl_range_congr
  intro j st hj
  have hle : 0 + j * g.sampling_rate + g.sampling_rate ≤ m := by
    have : (j + 1) * g.sampling_rate ≤ q * g.sampling_rate := Nat.mul_le_mul_right _ hj
    rw [Nat.mul_comm q] at this
    calc 0 + j * g.sampling_rate + g.sampling_rate = (j + 1) * g.sampling_rate := by ring
      _ ≤ g.sampling_rate * q := this
      _ ≤ m := hm
  simp only [accumulate_take sig m _ _ hle]

theorem decode_nrz_i_blocks (g : DigitalSignalGenerator) (signal : List ℚ)
    (hs : 1 ≤ g.sampling_rate) : BlockDecoder decode_nrz_i g signal := by
  cases signal with
  | nil => exact ⟨[], rfl, by simp, by simp, by simp [decode_nrz_i]⟩
  | cons first rest =>
    obtain ⟨hfl, hfc⟩ := full_blocks g.sampling_rate (first :: rest).length hs
      (first :: rest) rfl
    have hshape := nrziOut_shape g (first :: rest) first
      ((first :: rest).length / g.sampling_rate)
    refine ⟨_, decode_nrz_i_cons g first rest hs, hshape.1, hshape.2, ?_⟩
    rcases Nat.eq_zero_or_pos ((first :: rest).length / g.sampling_rate) with h0 | hpos
    · rw [h0]
      simp [decode_nrz_i, nrziOut]
    · obtain ⟨k, hk⟩ : ∃ k, g.sampling_rate * ((first :: rest).length / g.sampling_rate) =
          k + 1 := ⟨_, (Nat.succ_pred_eq_of_pos (Nat.mul_pos (by omega) hpos)).symm⟩
      have htake : (first :: rest).take (g.sampling_rate *
          ((first :: rest).length / g.sampling_rate)) = first :: rest.take k := by
        rw [hk, List.take_succ_cons]
      have e := decode_nrz_i_cons g first (rest.take k) hs
      rw [← htake, hfc, nrziOut_take g _ first _ _ (le_refl _)] at e
      exact e

theorem pcm_encode_ok (samples : List ℚ) (n_bits : Nat) (h : 2 ≤ samples.length) :
    pcm_encode samples n_bits =
      Except.ok (samples.flatMap (fun v => pcmGroup (pcmQuant samples n_bits v) n_bits)) := by
  unfold pcm_encode
  rw [if_neg (by omega)]
  rfl

theorem pcm_encode_error (samples : List ℚ) (n_bits : Nat) (h : samples.length < 2) :
    pcm_encode samples n_bits = Except.error "Signal needs at least 2 samples" := by
  unfold pcm_encode
  rw [if_pos h]

theorem length_pcmGroup (q : Int) (n : Nat) : (pcmGroup q n).length = n := by
  simp [pcmGroup]

theorem pcmGroup_alphabet (q : Int) (n : Nat) : ∀ c ∈ pcmGroup q n, c = '0' ∨ c = '1' := by
  intro c hc
  unfold pcmGroup at hc
  rw [List.mem_map] at hc
  obtain ⟨b, _, rfl⟩ := hc
  split <;> simp

theorem length_flatMap_const (l : List ℚ) (f : ℚ → List Char) (n : Nat)
    (hf : ∀ v, (f v).length = n) : (l.flatMap f).length = l.length * n := by
  induction l with
  | nil => simp
  | cons a l ih => rw [List.flatMap_cons, List.length_append, ih, hf, List.length_cons]; ring

theorem flatMap_group (f : ℚ → List Char) (n : Nat) (hf : ∀ v, (f v).length = n) :
    ∀ (l : List ℚ) (i : Nat) (hi : i < l.length),
      ((l.flatMap f).drop (n * i)).take n = f l[i] := by
  intro l
  induction l with
  | nil => intro i hi; simp at hi
  | cons a l ih =>
    intro i hi
    cases i with
    | zero =>
      rw [List.flatMap_cons, Nat.mul_zero, List.drop_zero, List.take_append_of_le_length
        (by rw [hf]), List.take_of_length_le (by rw [hf])]
      rfl
    | succ i =>
      have hi2 : i < l.length := by simpa using hi
      have e : n * (i + 1) = (f a).length + n * i := by rw [hf]; ring
      rw [List.flatMap_cons, e, List.drop_append, ih i hi2]
      rfl

theorem foldl_min_le (l : List ℚ) :
    ∀ a, l.foldl min a ≤ a ∧ ∀ v ∈ l, l.foldl min a ≤ v := by
  induction l with
  | nil => intro a; simp
  | cons x l ih =>
    intro a
    rw [List.foldl_cons]
    obtain ⟨h1, h2⟩ := ih (min a x)
    refine ⟨le_trans h1 (min_le_left _ _), ?_⟩
    intro v hv
    rw [List.mem_cons] at hv
    rcases hv with rfl | hv
    · exact le_trans h1 (min_le_right _ _)
    · exact h2 v hv

theorem le_foldl_max (l : List ℚ) :
    ∀ a, a ≤ l.foldl max a ∧ ∀ v ∈ l, v ≤ l.foldl max a := by
  induction l with
  | nil => intro a; simp
  | cons x l ih =>
    intro a
    rw [List.foldl_cons]
    obtain ⟨h1, h2⟩ := ih (max a x)
    refine ⟨le_trans (le_max_left _ _) h1, ?_⟩
    intro v hv
    rw [List.mem_cons] at hv
    rcases hv with rfl | hv
    · exact le_trans (le_max_right _ _) h1
    · exact h2 v hv

theorem foldl_max_le (l : List ℚ) :
    ∀ a u, a ≤ u → (∀ w ∈ l, w ≤ u) → l.foldl max a ≤ u := by
  induction l with
  | nil => intro a u h _; simpa using h
  | cons x l ih =>
    intro a u h hl
    rw [List.foldl_cons]
    exact ih (max a x) u (max_le h (hl x (List.mem_cons_self _ _)))
      (fun w hw => hl w (List.mem_cons_of_mem _ hw))

theorem pcmMin_le (samples : List ℚ) : ∀ v ∈ samples, pcmMin samples ≤ v :=
  (foldl_min_le samples _).2

theorem le_pcmMax (samples : List ℚ) : ∀ v ∈ samples, v ≤ pcmMax samples :=
  (le_foldl_max samples _).2

theorem pcmMax_eq (samples : List ℚ) (v : ℚ) (hv : v ∈ samples) (hmax : ∀ w ∈ samples, w ≤ v) :
    pcmMax samples = v := by
  apply le_antisymm
  · apply foldl_max_le samples _ v _ hmax
    cases samples with
    | nil => simp at hv
    | cons a l => exact hmax a (List.mem_cons_self _ _)
  · exact le_pcmMax samples v hv

theorem bit_nat (q : Int) (h0 : 0 ≤ q) (b : Nat) :
    ((q >>> b) % 2 = 1) ↔ (q.toNat / 2 ^ b % 2 = 1) := by
  obtain ⟨m, rfl⟩ : ∃ m : Nat, q = m := ⟨q.toNat, by omega⟩
  rw [Int.shiftRight_eq_div_pow, Int.toNat_ofNat]
  have e : ((m : Int) / ((2 ^ b : Nat) : Int)) % 2 = ((m / 2 ^ b % 2 : Nat) : Int) := by
    push_cast; rfl
  rw [e]
  omega

theorem pcmGroup_succ (q : Int) (n : Nat) :
    pcmGroup q (n + 1) = (if (q >>> n) % 2 = 1 then '1' else '0') :: pcmGroup q n := by
  simp [pcmGroup, List.range_succ]

theorem foldl_pcmGroup (q : Int) (h0 : 0 ≤ q) :
    ∀ (n acc : Nat), (pcmGroup q n).foldl (fun acc c => 2 * acc + (if c = '1' then 1 else 0))
      acc = acc * 2 ^ n + q.toNat % 2 ^ n := by
  intro n
  induction n with
  | zero => intro acc; simp [pcmGroup, Nat.mod_one]
  | succ n ih =>
    intro acc
    rw [pcmGroup_succ, List.foldl_cons, ih, pow_succ, Nat.mod_mul]
    have hlt : q.toNat / 2 ^ n % 2 < 2 := Nat.mod_lt _ (by norm_num)
    by_cases hb : (q >>> n) % 2 = 1
    · have h1 := (bit_nat q h0 n).mp hb
      rw [if_pos hb, h1]
      simp only [if_true]
      ring
    · have h1 : q.toNat / 2 ^ n % 2 = 0 := by
        have := (bit_nat q h0 n).not.mp hb
        omega
      rw [if_neg hb, h1]
      simp only [Char.reduceEq, if_false]
      ring

theorem readGroup_pcmGroup (q : Int) (n : Nat) (h0 : 0 ≤ q) (h1 : q < 2 ^ n) :
    (readGroup (pcmGroup q n) : Int) = q := by
  unfold readGroup
  rw [foldl_pcmGroup q h0 n 0, Nat.zero_mul, Nat.zero_add]
  have hlt : q.toNat < 2 ^ n := by
    have : ((q.toNat : Nat) : Int) < ((2 ^ n : Nat) : Int) := by
      rw [Int.toNat_of_nonneg h0]; exact_mod_cast h1
    exact_mod_cast this
  rw [Nat.mod_eq_of_lt hlt, Int.toNat_of_nonneg h0]

theorem pcmRange_pos (samples : List ℚ) : 0 < pcmRange samples := by
  unfold pcmRange
  split
  · norm_num
  · rename_i h
    have hle : pcmMin samples ≤ pcmMax samples :=
      le_trans (foldl_min_le samples _).1 (le_foldl_max samples _).1
    have : 0 ≤ pcmMax samples - pcmMin samples := by linarith
    exact lt_of_le_of_ne this (Ne.symm h)

theorem pcmQuant_mono (samples : List ℚ) (n : Nat) (v w : ℚ) (h : v ≤ w) :
    pcmQuant samples n v ≤ pcmQuant samples n w := by
  unfold pcmQuant
  apply Int.floor_mono
  have hr := pcmRange_pos samples
  have hl : (0 : ℚ) ≤ (((2 : Int) ^ n - 1 : Int) : ℚ) := by
    have : (1 : Int) ≤ 2 ^ n := one_le_pow₀ (by norm_num)
    exact_mod_cast (by omega : (0 : Int) ≤ 2 ^ n - 1)
  apply mul_le_mul_of_nonneg_right _ hl
  apply div_le_div_of_nonneg_right _ (le_of_lt hr)
  linarith

theorem pcmQuant_nonneg (samples : List ℚ) (n : Nat) (v : ℚ) (hv : v ∈ samples) :
    0 ≤ pcmQuant samples n v := by
  unfold pcmQuant
  apply Int.floor_nonneg.mpr
  have hr := pcmRange_pos samples
  have hl : (0 : ℚ) ≤ (((2 : Int) ^ n - 1 : Int) : ℚ) := by
    have : (1 : Int) ≤ 2 ^ n := one_le_pow₀ (by norm_num)
    exact_mod_cast (by omega : (0 : Int) ≤ 2 ^ n - 1)
  apply mul_nonneg _ hl
  apply div_nonneg _ (le_of_lt hr)
  have := pcmMin_le samples v hv
  linarith

theorem pcmQuant_le (samples : List ℚ) (n : Nat) (v : ℚ) (hv : v ∈ samples) :
    pcmQuant samples n v ≤ 2 ^ n - 1 := by
  unfold pcmQuant
  have hr := pcmRange_pos samples
  have hl : (0 : ℚ) ≤ (((2 : Int) ^ n - 1 : Int) : ℚ) := by
    have : (1 : Int) ≤ 2 ^ n := one_le_pow₀ (by norm_num)
    exact_mod_cast (by omega : (0 : Int) ≤ 2 ^ n - 1)
  have hnum : v - pcmMin samples ≤ pcmRange samples := by
    have h1 := le_pcmMax samples v hv
    unfold pcmRange
    split
    · rename_i h0
      have : v - pcmMin samples ≤ 0 := by linarith
      linarith [show (0 : ℚ) < 1 / 10 ^ 10 by norm_num]
    · linarith
  have hle1 : (v - pcmMin samples) / pcmRange samples ≤ 1 := (div_le_one hr).mpr hnum
  have : (v - pcmMin samples) / pcmRange samples * (((2 : Int) ^ n - 1 : Int) : ℚ) ≤
      (((2 : Int) ^ n - 1 : Int) : ℚ) := by
    calc _ ≤ 1 * (((2 : Int) ^ n - 1 : Int) : ℚ) := mul_le_mul_of_nonneg_right hle1 hl
      _ = _ := one_mul _
  have h2 := Int.floor_mono this
  rw [Int.floor_intCast] at h2
  exact h2

theorem top_level_bit (n b : Nat) (hb : b < n) : (((2 : Int) ^ n - 1) >>> b) % 2 = 1 := by
  rw [bit_nat _ (by have : (1 : Int) ≤ 2 ^ n := one_le_pow₀ (by norm_num); omega) b]
  have e : ((2 : Int) ^ n - 1).toNat = 2 ^ n - 1 := by
    have h1 : (1 : Nat) ≤ 2 ^ n := Nat.one_le_two_pow
    have : ((2 : Int) ^ n - 1) = ((2 ^ n - 1 : Nat) : Int) := by
      push_cast [Nat.cast_sub h1]; ring
    rw [this, Int.toNat_ofNat]
  rw [e]
  have := Nat.testBit_two_pow_sub_one n b
  rw [Nat.testBit, Nat.shiftRight_eq_div_pow] at this
  simp [hb] at this
  exact this

theorem pcmGroup_top (n : Nat) : pcmGroup (2 ^ n - 1) n = List.replicate n '1' := by
  rw [List.eq_replicate_iff]
  refine ⟨length_pcmGroup _ _, ?_⟩
  intro c hc
  unfold pcmGroup at hc
  rw [List.mem_map] at hc
  obtain ⟨b, hb, rfl⟩ := hc
  rw [List.mem_reverse, List.mem_range] at hb
  rw [if_pos (top_level_bit n b hb)]

/-! ## The claims, continued -/

/-- C11. For every input string, every `sampling_rate >= 2` and every symbol index `k`, the
`sampling_rate / 2` samples of the first half of symbol `k` in the voltage sequence of
`differential_manchester` all equal one value `v` in `{+1, -1}` and those of the second half all
equal `-v`; the averages of the two halves therefore differ. -/
theorem differential_manchester_mid_transition (g : DigitalSignalGenerator) (data : List Char)
    (k : Nat) (hs : 2 ≤ g.sampling_rate) (hk : k < data.length) :
    ∃ v : ℚ, (v = 1 ∨ v = -1) ∧
      (∀ d, d < g.sampling_rate / 2 →
        (differential_manchester g data).2[k * (2 * (g.sampling_rate / 2)) + d]? = some v) ∧
      (∀ d, d < g.sampling_rate / 2 →
        (differential_manchester g data).2[k * (2 * (g.sampling_rate / 2)) +
          g.sampling_rate / 2 + d]? = some (-v)) ∧
      accumulate (differential_manchester g data).2 (k * (2 * (g.sampling_rate / 2)))
          (k * (2 * (g.sampling_rate / 2)) + g.sampling_rate / 2) /
            ((g.sampling_rate / 2 : Nat) : ℚ) ≠
        accumulate (differential_manchester g data).2
          (k * (2 * (g.sampling_rate / 2)) + g.sampling_rate / 2)
          (k * (2 * (g.sampling_rate / 2)) + 2 * (g.sampling_rate / 2)) /
            ((g.sampling_rate / 2 : Nat) : ℚ) := by
  have hsig := differential_manchester_signal g data
  have hlenb : ∀ i, (dmBlock g data i).length = 2 * (g.sampling_rate / 2) :=
    fun i => by simp [dmBlock]; omega
  have hh : 1 ≤ g.sampling_rate / 2 := by omega
  have hs0 : ((g.sampling_rate / 2 : Nat) : ℚ) ≠ 0 := by
    exact_mod_cast (by omega : g.sampling_rate / 2 ≠ 0)
  refine ⟨-dmLevel data (k + 1), ?_, ?_, ?_, ?_⟩
  · rcases dmLevel_cases data (k + 1) with h | h <;> simp [h]
  · intro d hd
    rw [hsig, blocks_getElem? _ _ _ k d hlenb hk (by omega)]
    simp only [dmBlock]
    rw [List.getElem?_append_left (by simp; omega)]
    simp [hd]
  · intro d hd
    rw [hsig, Nat.add_assoc, blocks_getElem? _ _ _ k _ hlenb hk (by omega)]
    simp only [dmBlock]
    rw [List.getElem?_append_right (by simp)]
    simp [hd]
  · rw [hsig, accumulate_block _ (2 * (g.sampling_rate / 2)) data.length k 0
        (g.sampling_rate / 2) _ _ hlenb hk (by omega) (by omega) (by omega),
      accumulate_block _ (2 * (g.sampling_rate / 2)) data.length k (g.sampling_rate / 2)
        (g.sampling_rate / 2 + g.sampling_rate / 2) _ _ hlenb hk (by omega) (by omega)
        (by omega)]
    simp only [dmBlock, halves_first, halves_second]
    rw [mul_div_cancel_left₀ _ hs0, mul_div_cancel_left₀ _ hs0]
    rcases dmLevel_cases data (k + 1) with h | h <;> rw [h] <;> norm_num

/-- Instance of C11: symbol 1 of the string `0x1` at `sampling_rate = 5`. -/
theorem differential_manchester_mid_transition_witness :
    ∃ v : ℚ, (v = 1 ∨ v = -1) ∧
      (∀ d, d < 5 / 2 →
        (differential_manchester ⟨1, 5⟩ "0x1".toList).2[1 * (2 * (5 / 2)) + d]? = some v) ∧
      (∀ d, d < 5 / 2 →
        (differential_manchester ⟨1, 5⟩ "0x1".toList).2[1 * (2 * (5 / 2)) + 5 / 2 + d]? =
          some (-v)) ∧
      accumulate (differential_manchester ⟨1, 5⟩ "0x1".toList).2 (1 * (2 * (5 / 2)))
          (1 * (2 * (5 / 2)) + 5 / 2) / ((5 / 2 : Nat) : ℚ) ≠
        accumulate (differential_manchester ⟨1, 5⟩ "0x1".toList).2
          (1 * (2 * (5 / 2)) + 5 / 2) (1 * (2 * (5 / 2)) + 2 * (5 / 2)) /
            ((5 / 2 : Nat) : ℚ) :=
  differential_manchester_mid_transition ⟨1, 5⟩ "0x1".toList 1 (by decide) (by decide)

/-- C12. The call `pcm_encode(samples, n_bits)` throws `std::invalid_argument` if and only if
fewer than 2 samples are supplied; in every other case (all-equal samples included) it returns
a string over `0`/`1` of length exactly `len(samples) * n_bits`. -/
theorem pcm_encode_result (samples : List ℚ) (n_bits : Nat) :
    ((∃ msg, pcm_encode samples n_bits = Except.error msg) ↔ samples.length < 2) ∧
    (2 ≤ samples.length → ∃ out, pcm_encode samples n_bits = Except.ok out ∧
      out.length = samples.length * n_bits ∧ ∀ c ∈ out, c = '0' ∨ c = '1') := by
  constructor
  · constructor
    · rintro ⟨msg, h⟩
      by_contra hlen
      rw [pcm_encode_ok samples n_bits (by omega)] at h
      cases h
    · intro h
      exact ⟨_, pcm_encode_error samples n_bits h⟩
  · intro h
    refine ⟨_, pcm_encode_ok samples n_bits h,
      length_flatMap_const _ _ n_bits (fun v => length_pcmGroup _ _), ?_⟩
    intro c hc
    rw [List.mem_flatMap] at hc
    obtain ⟨v, _, hc⟩ := hc
    exact pcmGroup_alphabet _ _ c hc

/-- Instance of C12: three equal samples at 4 bits give twelve characters; one sample throws. -/
theorem pcm_encode_result_witness :
    (∃ out, pcm_encode [3, 3, 3] 4 = Except.ok out ∧
      out.length = [(3 : ℚ), 3, 3].length * 4 ∧ ∀ c ∈ out, c = '0' ∨ c = '1') ∧
    ((∃ msg, pcm_encode [3] 4 = Except.error msg) ↔ [(3 : ℚ)].length < 2) :=
  ⟨(pcm_encode_result [3, 3, 3] 4).2 (by decide), (pcm_encode_result [3] 4).1⟩

/-- C13. For a strictly increasing sample sequence of length at least 2 (exact arithmetic) and
`n_bits = 8`, the consecutive 8-character groups of the output of `pcm_encode`, read as unsigned
integers most significant bit first, form a non-decreasing sequence. -/
theorem pcm_encode_monotone (samples : List ℚ) (hlen : 2 ≤ samples.length)
    (hinc : samples.Pairwise (fun x y => x < y)) :
    ∃ out, pcm_encode samples 8 = Except.ok out ∧ out.length = samples.length * 8 ∧
      ∀ i j, i ≤ j → j < samples.length →
        readGroup ((out.drop (8 * i)).take 8) ≤ readGroup ((out.drop (8 * j)).take 8) := by
  refine ⟨_, pcm_encode_ok samples 8 hlen,
    length_flatMap_const _ _ 8 (fun v => length_pcmGroup _ _), ?_⟩
  intro i j hij hj
  have hi : i < samples.length := by omega
  rw [flatMap_group _ 8 (fun v => length_pcmGroup _ _) samples i hi,
    flatMap_group _ 8 (fun v => length_pcmGroup _ _) samples j hj]
  have hle : samples[i] ≤ samples[j] := by
    rcases Nat.lt_or_ge i j with h | h
    · exact le_of_lt (List.pairwise_iff_getElem.mp hinc i j hi hj h)
    · have : i = j := by omega
      subst this
      exact le_refl _
  have hq := pcmQuant_mono samples 8 _ _ hle
  have hi0 := pcmQuant_nonneg samples 8 _ (List.getElem_mem hi)
  have hj0 := pcmQuant_nonneg samples 8 _ (List.getElem_mem hj)
  have hi1 := pcmQuant_le samples 8 _ (List.getElem_mem hi)
  have hj1 := pcmQuant_le samples 8 _ (List.getElem_mem hj)
  have ei := readGroup_pcmGroup _ 8 hi0 (by omega)
  have ej := readGroup_pcmGroup _ 8 hj0 (by omega)
  have : (readGroup (pcmGroup (pcmQuant samples 8 samples[i]) 8) : Int) ≤
      (readGroup (pcmGroup (pcmQuant samples 8 samples[j]) 8) : Int) := by
    rw [ei, ej]; exact hq
  exact_mod_cast this

/-- Instance of C13 at the samples 0, 1/2, 1. -/
theorem pcm_encode_monotone_witness :
    ∃ out, pcm_encode [0, 1 / 2, 1] 8 = Except.ok out ∧
      out.length = [(0 : ℚ), 1 / 2, 1].length * 8 ∧
      ∀ i j, i ≤ j → j < [(0 : ℚ), 1 / 2, 1].length →
        readGroup ((out.drop (8 * i)).take 8) ≤ readGroup ((out.drop (8 * j)).take 8) :=
  pcm_encode_monotone [0, 1 / 2, 1] (by decide) (by simp; norm_num)

/-- C14 (negation of the claim as stated). For the two equal samples 0, 0 and `n_bits = 1` the
first sample, which equals the maximum, is not emitted as the top level `1`: the value of
`range` is replaced by `1e-10`, the normalised value is 0 and the output is `00`. -/
theorem pcm_encode_constant_not_top :
    ¬ ∃ out, pcm_encode [0, 0] 1 = Except.ok out ∧
      (out.drop (1 * 0)).take 1 = List.replicate 1 '1' := by
  rintro ⟨out, h, htop⟩
  have e : pcm_encode [0, 0] 1 = Except.ok ['0', '0'] := by
    rw [pcm_encode_ok _ _ (by decide)]
    have hq : pcmQuant [0, 0] 1 0 = 0 := by
      simp [pcmQuant, pcmMin]
    simp [hq, pcmGroup]
  rw [e] at h
  cases h
  simp at htop

/-- C14 (amended). For every sample sequence of length at least 2 whose samples are not all
equal and every `n_bits` with `1 <= n_bits <= 30`, every sample whose value equals the maximum
of the sequence is emitted by `pcm_encode` as `n_bits` consecutive `1` characters. -/
theorem pcm_encode_max_top (samples : List ℚ) (n_bits : Nat) (hlen : 2 ≤ samples.length)
    (_hn1 : 1 ≤ n_bits) (_hn30 : n_bits ≤ 30)
    (hnc : ∃ x ∈ samples, ∃ y ∈ samples, x ≠ y) :
    ∃ out, pcm_encode samples n_bits = Except.ok out ∧
      ∀ (i : Nat) (hi : i < samples.length), (∀ w ∈ samples, w ≤ samples[i]) →
        (out.drop (n_bits * i)).take n_bits = List.replicate n_bits '1' := by
  refine ⟨_, pcm_encode_ok samples n_bits hlen, ?_⟩
  intro i hi hmax
  rw [flatMap_group _ n_bits (fun v => length_pcmGroup _ _) samples i hi]
  have hmx := pcmMax_eq samples samples[i] (List.getElem_mem hi) hmax
  have hne : pcmMax samples - pcmMin samples ≠ 0 := by
    obtain ⟨x, hx, y, hy, hxy⟩ := hnc
    have h1 := pcmMin_le samples x hx
    have h2 := pcmMin_le samples y hy
    have h3 := le_pcmMax samples x hx
    have h4 := le_pcmMax samples y hy
    intro h0
    apply hxy
    linarith
  have hq : pcmQuant samples n_bits samples[i] = 2 ^ n_bits - 1 := by
    unfold pcmQuant pcmRange
    rw [if_neg hne, ← hmx, div_self hne, one_mul, Int.floor_intCast]
  rw [hq, pcmGroup_top]

/-- Instance of C14 (amended) at the samples 0, 1, 1/2 and 3 bits. -/
theorem pcm_encode_max_top_witness :
    ∃ out, pcm_encode [0, 1, 1 / 2] 3 = Except.ok out ∧
      ∀ (i : Nat) (hi : i < [(0 : ℚ), 1, 1 / 2].length),
        (∀ w ∈ [(0 : ℚ), 1, 1 / 2], w ≤ [(0 : ℚ), 1, 1 / 2][i]) →
        (out.drop (3 * i)).take 3 = List.replicate 3 '1' :=
  pcm_encode_max_top [0, 1, 1 / 2] 3 (by decide) (by decide) (by decide)
    ⟨0, by simp, 1, by simp, by norm_num⟩

/-- C16. For each of the five decoders, every voltage sequence (the empty one included) and
every `sampling_rate >= 1`, the decoded bitstream has length `len(signal) / sampling_rate`
(floor division), consists only of `0` and `1`, and is already determined by the full blocks:
the samples of a trailing incomplete block do not influence it. -/
theorem decoders_block_structure (g : DigitalSignalGenerator) (signal : List ℚ)
    (hs : 1 ≤ g.sampling_rate) :
    BlockDecoder decode_nrz_l g signal ∧ BlockDecoder decode_nrz_i g signal ∧
    BlockDecoder decode_manchester g signal ∧
    BlockDecoder decode_differential_manchester g signal ∧
    BlockDecoder decode_ami g signal :=
  ⟨decode_nrz_l_blocks g signal hs, decode_nrz_i_blocks g signal hs,
    decode_manchester_blocks g signal hs, decode_differential_manchester_blocks g signal hs,
    decode_ami_blocks g signal hs⟩

/-- Instance of C16: four samples at `sampling_rate = 3`, one full block and one stray sample.
-/
theorem decoders_block_structure_witness :
    BlockDecoder decode_nrz_l ⟨1, 3⟩ [1, -1, 1, 1 / 2] ∧
    BlockDecoder decode_nrz_i ⟨1, 3⟩ [1, -1, 1, 1 / 2] ∧
    BlockDecoder decode_manchester ⟨1, 3⟩ [1, -1, 1, 1 / 2] ∧
    BlockDecoder decode_differential_manchester ⟨1, 3⟩ [1, -1, 1, 1 / 2] ∧
    BlockDecoder decode_ami ⟨1, 3⟩ [1, -1, 1, 1 / 2] :=
  decoders_block_structure ⟨1, 3⟩ [1, -1, 1, 1 / 2] (by decide)

/-- C17. For every input string and every `sampling_rate`, each encoder returns time and
voltage sequences of one common length: `len(bits) * sampling_rate` for `nrz_l`, `nrz_i` and
`ami`, and `len(bits) * 2 * (sampling_rate / 2)` (floor division) for `manchester` and
`differential_manchester`; the empty bitstream gives empty sequences. -/
theorem encoder_shapes (g : DigitalSignalGenerator) (data : List Char) :
    ((nrz_l g data).1.length = data.length * g.sampling_rate ∧
      (nrz_l g data).2.length = data.length * g.sampling_rate) ∧
    ((nrz_i g data).1.length = data.length * g.sampling_rate ∧
      (nrz_i g data).2.length = data.length * g.sampling_rate) ∧
    ((ami g data).1.length = data.length * g.sampling_rate ∧
      (ami g data).2.length = data.length * g.sampling_rate) ∧
    ((manchester g data).1.length = data.length * 2 * (g.sampling_rate / 2) ∧
      (manchester g data).2.length = data.length * 2 * (g.sampling_rate / 2)) ∧
    ((differential_manchester g data).1.length = data.length * 2 * (g.sampling_rate / 2) ∧
      (differential_manchester g data).2.length = data.length * 2 * (g.sampling_rate / 2)) ∧
    (nrz_l g [] = ([], []) ∧ nrz_i g [] = ([], []) ∧ ami g [] = ([], []) ∧
      manchester g [] = ([], []) ∧ differential_manchester g [] = ([], [])) :=
  ⟨nrz_l_shape g data, nrz_i_shape g data, ami_shape g data, manchester_shape g data,
    differential_manchester_shape g data, rfl, rfl, rfl, rfl, rfl⟩

/-- C18 (negation of the claim as stated). With `sampling_rate = 2`, `differential_manchester`
on the one-character string `x` differs from its output on `0`, the string obtained by replacing
the non-`1` character by `0`. -/
theorem differential_manchester_not_lenient_to_zero :
    differential_manchester ⟨1, 2⟩ ['x'] ≠
      differential_manchester ⟨1, 2⟩ (zeroUnlessOne ['x']) := by
  intro h
  have h2 := congrArg Prod.snd h
  rw [differential_manchester_signal, differential_manchester_signal] at h2
  simp [blocks, dmBlock, dmLevel, zeroUnlessOne, List.range_succ] at h2
  norm_num at h2

/-- C18 (amended). The output of `nrz_l`, `nrz_i`, `manchester` and `ami` on `s` equals their
output on `s` with every character other than `1` replaced by `0`; the output of
`differential_manchester` on `s` equals its output on `s` with every character other than `0`
replaced by `1`. -/
theorem encoders_lenient (g : DigitalSignalGenerator) (s : List Char) :
    nrz_l g s = nrz_l g (zeroUnlessOne s) ∧
    nrz_i g s = nrz_i g (zeroUnlessOne s) ∧
    manchester g s = manchester g (zeroUnlessOne s) ∧
    ami g s = ami g (zeroUnlessOne s) ∧
    differential_manchester g s = differential_manchester g (oneUnlessZero s) :=
  ⟨nrz_l_lenient g s, nrz_i_lenient g s, manchester_lenient g s, ami_lenient g s,
    differential_manchester_lenient g s⟩

/-- C19 (negation of the claim as stated). The list returned for `100011000001` does not start
with `(3,2)`, `(7,5)`. -/
theorem find_zero_sequences_example_not_as_claimed :
    ¬ ∃ rest, find_zero_sequences "100011000001".toList = some ((3, 2) :: (7, 5) :: rest) := by
  rintro ⟨rest, h⟩
  have e : find_zero_sequences "100011000001".toList = some [(1, 3), (6, 5)] := by decide
  rw [e] at h
  simp at h

/-- C19 (amended). For `100011000001` the function returns `(1,3)` and `(6,5)`: the zero spans
`000` at offset 1 and `00000` at offset 6. -/
theorem find_zero_sequences_example :
    find_zero_sequences "100011000001".toList = some [(1, 3), (6, 5)] := by
  decide

/-- C20. For every bitstream over `0`/`1` the palindrome search returns a result, so that every
unchecked read of `t` and of `P` was inside its buffer and the expansion loop ended within its
fuel; the final extraction has `0 <= start` and `start + max_len <= len(s)`. -/
theorem longest_palindrome_manacher_safe (s : List Char) (hb : ∀ c ∈ s, c = '0' ∨ c = '1') :
    ∃ (p : List Char) (start max_len : Int),
      longest_palindrome_manacher s = some (p, start, max_len) ∧
      0 ≤ start ∧ 0 ≤ max_len ∧ start + max_len ≤ s.length := by
  have h1 : '^' ∉ s := fun h => by rcases hb _ h with h | h <;> exact absurd h (by decide)
  have h2 : '$' ∉ s := fun h => by rcases hb _ h with h | h <;> exact absurd h (by decide)
  obtain ⟨a, L, hrun, hbound, _, _, _⟩ := manacher_run s h1 h2
  exact ⟨_, a, L, hrun, by omega, by omega, by omega⟩

/-- Instance of C20 at the bitstream `0010100110`. -/
theorem longest_palindrome_manacher_safe_witness :
    ∃ (p : List Char) (start max_len : Int),
      longest_palindrome_manacher "0010100110".toList = some (p, start, max_len) ∧
      0 ≤ start ∧ 0 ≤ max_len ∧ start + max_len ≤ "0010100110".toList.length :=
  longest_palindrome_manacher_safe "0010100110".toList (by decide)

/-! ## No long zero runs after scrambling -/

/-- Every position holding a `0` lies in a maximal zero run. -/
theorem zero_in_maxRun (data : List Char) :
    ∀ i, data[i]? = some '0' → ∃ a L, MaxRun data a L ∧ a ≤ i ∧ i < a + L := by
  have hleft : ∀ i, data[i]? = some '0' →
      ∃ a, a ≤ i ∧ (∀ k, a ≤ k → k ≤ i → data[k]? = some '0') ∧
        (∀ k, k + 1 = a → data[k]? ≠ some '0') := by
    intro i
    induction i with
    | zero =>
      intro h
      exact ⟨0, le_refl _, fun k _ hk => by
        have : k = 0 := by omega
        subst this; exact h, fun k hk => by omega⟩
    | succ i ih =>
      intro h
      by_cases hp : data[i]? = some '0'
      · obtain ⟨a, ha, hz, hb⟩ := ih hp
        refine ⟨a, by omega, ?_, hb⟩
        intro k hk1 hk2
        by_cases hk : k = i + 1
        · subst hk; exact h
        · exact hz k hk1 (by omega)
      · refine ⟨i + 1, le_refl _, ?_, ?_⟩
        · intro k hk1 hk2
          have : k = i + 1 := by omega
          subst this; exact h
        · intro k hk
          have : k = i := by omega
          subst this; exact hp
  intro i h
  obtain ⟨a, ha, hz, hb⟩ := hleft i h
  obtain ⟨e, _, hie, _, hze, hend⟩ := zeroRunLoop_spec data (data.length + 1) i 0 (by omega)
  have hne : i ≠ e := fun he => hend (he ▸ h)
  refine ⟨a, e - a, ⟨by omega, ?_, hb, ?_⟩, ha, by omega⟩
  · intro k hk1 hk2
    by_cases hki : k ≤ i
    · exact hz k hk1 hki
    · exact hze k (by omega) (by omega)
  · have : a + (e - a) = e := by omega
    rw [this]; exact hend

/-- A position just behind a maximal zero run lies in no maximal zero run. -/
theorem after_run_not_in_run (data : List Char) (a L : Nat) (h : MaxRun data a L) :
    ∀ a2 L2, MaxRun data a2 L2 → ¬(a2 ≤ a + L ∧ a + L < a2 + L2) := by
  intro a2 L2 h2 hcon
  exact h.2.2.2 (h2.2.1 (a + L) hcon.1 hcon.2)

theorem hdb3Pattern_three (n : Nat) : (hdb3Pattern n)[3]? = some 'V' := by
  unfold hdb3Pattern
  split <;> rfl

theorem hdb3_window (data : List Char) :
    ∃ r, hdb3_scramble data = some r ∧ ∀ i, ¬ ∀ d, d < 4 → r[i + d]? = some '0' := by
  obtain ⟨runs, r, _, hmem, _, hr, _, hin, hout⟩ := hdb3_scramble_run data
  refine ⟨r, hr, ?_⟩
  intro i hwin
  by_cases hblk : ∃ a L, MaxRun data a L ∧ a ≤ i ∧ i < a + 4 * (L / 4)
  · obtain ⟨a, L, hm, h1, h2⟩ := hblk
    obtain ⟨pre, post, hdec⟩ := List.append_of_mem ((hmem a L).mpr hm)
    have hv := hin pre (a, L) post hdec (i + (3 - (i - a) % 4)) (by simp; omega)
      (by simp; omega)
    have e3 : (i + (3 - (i - a) % 4) - (a, L).1) % 4 = 3 := by simp; omega
    rw [e3, hdb3Pattern_three, hwin (3 - (i - a) % 4) (by omega)] at hv
    simp at hv
  · have hdi : r[i]? = data[i]? := hout i (fun a L hm hcon => hblk ⟨a, L, hm, hcon.1, hcon.2⟩)
    have h0 := hwin 0 (by omega)
    rw [Nat.add_zero, hdi] at h0
    obtain ⟨a, L, hm, h1, h2⟩ := zero_in_maxRun data i h0
    have htail : a + 4 * (L / 4) ≤ i := by
      by_contra hc
      exact hblk ⟨a, L, hm, h1, by omega⟩
    have hde : r[a + L]? = data[a + L]? := hout (a + L) (fun a2 L2 hm2 hcon =>
      after_run_not_in_run data a L hm a2 L2 hm2 ⟨hcon.1, by omega⟩)
    have hw := hwin (a + L - i) (by omega)
    have e : i + (a + L - i) = a + L := by omega
    rw [e, hde] at hw
    exact hm.2.2.2 hw

theorem b8zs_window (data : List Char) :
    ∃ r, b8zs_scramble data = some r ∧ ∀ i, ¬ ∀ d, d < 8 → r[i + d]? = some '0' := by
  obtain ⟨r, hr, _, hin, hout⟩ := b8zs_scramble_run data
  refine ⟨r, hr, ?_⟩
  intro i hwin
  by_cases hblk : ∃ a L, MaxRun data a L ∧ a ≤ i ∧ i < a + 8 * (L / 8)
  · obtain ⟨a, L, hm, h1, h2⟩ := hblk
    have hv := hin a L hm (i + (7 - (i - a) % 8)) (by omega) (by omega)
    have e7 : (i + (7 - (i - a) % 8) - a) % 8 = 7 := by omega
    rw [e7, hwin (7 - (i - a) % 8) (by omega)] at hv
    revert hv
    decide
  · have hdi : r[i]? = data[i]? := hout i (fun a L hm hcon => hblk ⟨a, L, hm, hcon.1, hcon.2⟩)
    have h0 := hwin 0 (by omega)
    rw [Nat.add_zero, hdi] at h0
    obtain ⟨a, L, hm, h1, h2⟩ := zero_in_maxRun data i h0
    have htail : a + 8 * (L / 8) ≤ i := by
      by_contra hc
      exact hblk ⟨a, L, hm, h1, by omega⟩
    have hde : r[a + L]? = data[a + L]? := hout (a + L) (fun a2 L2 hm2 hcon =>
      after_run_not_in_run data a L hm a2 L2 hm2 ⟨hcon.1, by omega⟩)
    have hw := hwin (a + L - i) (by omega)
    have e : i + (a + L - i) = a + L := by omega
    rw [e, hde] at hw
    exact hm.2.2.2 hw

theorem window_of_append (r l1 l2 : List Char) (n : Nat)
    (h : r = l1 ++ List.replicate n '0' ++ l2) :
    ∀ d, d < n → r[l1.length + d]? = some '0' := by
  intro d hd
  rw [h, List.append_assoc, List.getElem?_append_right (by omega),
    List.getElem?_append_left (by simp; omega)]
  simp [hd]

/-- C21. The output of `hdb3_scramble` contains no 4 consecutive `0` characters: no window of
four positions holds only zeros, so the output is never of the form `l1 ++ "0000" ++ l2`. -/
theorem hdb3_scramble_no_four_zeros (data : List Char) :
    ∃ r, hdb3_scramble data = some r ∧
      (∀ i, ¬ ∀ d, d < 4 → r[i + d]? = some '0') ∧
      (∀ l1 l2 : List Char, r ≠ l1 ++ List.replicate 4 '0' ++ l2) := by
  obtain ⟨r, hr, hwin⟩ := hdb3_window data
  refine ⟨r, hr, hwin, ?_⟩
  intro l1 l2 h
  exact hwin l1.length (window_of_append r l1 l2 4 h)

/-- C22. The output of `b8zs_scramble` contains no 8 consecutive `0` characters: no window of
eight positions holds only zeros, so the output is never of the form
`l1 ++ "00000000" ++ l2`. -/
theorem b8zs_scramble_no_eight_zeros (data : List Char) :
    ∃ r, b8zs_scramble data = some r ∧
      (∀ i, ¬ ∀ d, d < 8 → r[i + d]? = some '0') ∧
      (∀ l1 l2 : List Char, r ≠ l1 ++ List.replicate 8 '0' ++ l2) := by
  obtain ⟨r, hr, hwin⟩ := b8zs_window data
  refine ⟨r, hr, hwin, ?_⟩
  intro l1 l2 h
  exact hwin l1.length (window_of_append r l1 l2 8 h)

end DigitalSignalGenerator
